import Mathlib

/-!
Verification of the COMP593-regex repository (multi-clone.py, regex-fun.py).

The scripts are orchestrated around Python `re` searches, so the embedding
contains a small backtracking regular-expression engine whose result order
mirrors CPython's (leftmost start position, left alternative first, greedy
repetition longest first).  Every quantifier in the program's patterns applies
to a single-character class, so repetition is modelled over character classes,
which keeps the engine structurally recursive.  Strings are `List Char`;
fallible Python code (uncaught exceptions) is modelled with `PyResult`.
-/

set_option maxRecDepth 8000

/-- Character class for the regex token `\d`.  The program's inputs are ASCII,
where Python's `\d` is exactly the decimal digits. -/
def digitC (c : Char) : Bool := c.isDigit

/-- Character class for the regex token `\w` (ASCII range: letters, digits, underscore). -/
def wordC (c : Char) : Bool := c.isAlphanum || c == '_'

/-- Character class for the regex token `\s`: space, tab, newline, carriage
return, vertical tab, form feed. -/
def spaceC (c : Char) : Bool :=
  c == ' ' || c == '\t' || c == '\n' || c == '\r' || c == '\x0b' || c == '\x0c'

/-- Character class for the regex token `.` without DOTALL: any character except newline. -/
def dotC (c : Char) : Bool := c != '\n'

/-- Abstract syntax of the regular expressions appearing in the scripts.
All quantifiers in those patterns range over single-character classes, so
`rep` repeats a class between `lo` and `hi` times (`none` = unbounded),
greedily.  `grp` is a numbered capturing group, `eos` is `$`. -/
inductive RE : Type where
  | cls : (Char → Bool) → RE
  | lit : List Char → RE
  | seq : RE → RE → RE
  | alt : RE → RE → RE
  | rep : (Char → Bool) → Nat → Option Nat → RE
  | grp : Nat → RE → RE
  | eos : RE

/-- Capture state: most recent capture of a group sits first, as in a
backtracking engine where a group captured again shadows the old value. -/
abbrev Caps := List (Nat × List Char)

/-- Look up the value of capture group `i` (Python `mat.group(i)`, `None` when absent). -/
def getCap (c : Caps) (i : Nat) : Option (List Char) :=
  (c.find? (fun p => p.1 == i)).map (fun p => p.2)

/-- Record a capture for group `i`. -/
def setCap (i : Nat) (v : List Char) (c : Caps) : Caps := (i, v) :: c

/-- Boolean list prefix test (also models Python `str.find(sub) == 0`). -/
def startsWith : List Char → List Char → Bool
  | [], _ => true
  | _ :: _, [] => false
  | p :: ps, c :: cs => p == c && startsWith ps cs

/-- Maximal number of repetitions of class `p` available at the front of `s`,
clipped by the upper bound `hi`. -/
def repMax (p : Char → Bool) (hi : Option Nat) (s : List Char) : Nat :=
  match hi with
  | none => (s.takeWhile p).length
  | some h => min h (s.takeWhile p).length

/-- All ways a regex can match a prefix of `s`, as pairs (remaining input,
captures), in CPython backtracking priority order: the head of the list is the
match `re` would produce.  `$` (`eos`) succeeds at the end of the input or just
before a final newline, consuming nothing. -/
def mmatch : RE → List Char → Caps → List (List Char × Caps)
  | .cls p, s, caps =>
    match s with
    | [] => []
    | c :: rest => if p c then [(rest, caps)] else []
  | .lit l, s, caps => if startsWith l s then [(s.drop l.length, caps)] else []
  | .seq a b, s, caps => (mmatch a s caps).flatMap (fun pr => mmatch b pr.1 pr.2)
  | .alt a b, s, caps => mmatch a s caps ++ mmatch b s caps
  | .rep p lo hi, s, caps =>
    ((List.range (repMax p hi s + 1)).reverse.filter (fun n => decide (lo ≤ n))).map
      (fun n => (s.drop n, caps))
  | .grp i a, s, caps =>
    (mmatch a s caps).map (fun pr => (pr.1, setCap i (s.take (s.length - pr.1.length)) pr.2))
  | .eos, s, caps => if s = [] ∨ s = ['\n'] then [(s, caps)] else []

/-- Python `re.search`: scan start positions left to right, return the captures
of the first match found (in backtracking order) at the first viable position. -/
def pySearch (re : RE) : List Char → Option Caps
  | [] =>
    match mmatch re [] [] with
    | (_, c) :: _ => some c
    | [] => none
  | x :: rest =>
    match mmatch re (x :: rest) [] with
    | (_, c) :: _ => some c
    | [] => pySearch re rest

/-- Right-nested sequencing of a pattern written as a token list. -/
def cat : List RE → RE
  | [] => .lit []
  | [r] => r
  | r :: r2 :: rs => .seq r (cat (r2 :: rs))

/-- The last-name alternation `(\.|\w+|\w+-\w+)` of the folder pattern. -/
def lastAlt : RE :=
  .alt (.lit ['.'])
    (.alt (.rep wordC 1 none)
      (.seq (.rep wordC 1 none) (.seq (.lit ['-']) (.rep wordC 1 none))))

/-- The folder-name pattern of `extract_student_info`:
`\d+-\d+\s-\s(\w+) (\.|\w+|\w+-\w+)\s-\s(\w+)\s(\d+),\s(\d{4})\s(\d{3,4})\s(AM|PM)$`. -/
def folderPat : RE :=
  cat [.rep digitC 1 none, .lit ['-'], .rep digitC 1 none,
       .cls spaceC, .lit ['-'], .cls spaceC,
       .grp 1 (.rep wordC 1 none), .lit [' '], .grp 2 lastAlt,
       .cls spaceC, .lit ['-'], .cls spaceC,
       .grp 3 (.rep wordC 1 none), .cls spaceC, .grp 4 (.rep digitC 1 none),
       .lit [','], .cls spaceC, .grp 5 (.rep digitC 4 (some 4)),
       .cls spaceC, .grp 6 (.rep digitC 3 (some 4)),
       .cls spaceC, .grp 7 (.alt (.lit ['A', 'M']) (.lit ['P', 'M'])),
       .eos]

/-- First alternative of the link pattern:
`href=(?:\")(https\://github\.com/.+/.+)(?:\")` (dots escaped inside the group). -/
def urlPatA : RE :=
  cat [.lit "href=".toList, .lit ['"'],
       .grp 1 (cat [.lit "https://github.com/".toList, .rep dotC 1 none,
                    .lit ['/'], .rep dotC 1 none]),
       .lit ['"']]

/-- Second alternative of the link pattern:
`(?:<p>)(https://github.com/.+/.+)(?:</p>)` — note the dot of `github.com` is an
unescaped metacharacter here, matching any non-newline character. -/
def urlPatB : RE :=
  cat [.lit "<p>".toList,
       .grp 2 (cat [.lit "https://github".toList, .cls dotC, .lit "com/".toList,
                    .rep dotC 1 none, .lit ['/'], .rep dotC 1 none]),
       .lit "</p>".toList]

/-- The link pattern of `get_student_url`. -/
def urlPat : RE := .alt urlPatA urlPatB

/-- The phone pattern of `phone_number_brackets`:
`(\([\d]*\))\s?([\d]{3})-([\d]{4}$)`. -/
def phonePat : RE :=
  cat [.grp 1 (cat [.lit ['('], .rep digitC 0 none, .lit [')']]),
       .rep spaceC 0 (some 1),
       .grp 2 (.rep digitC 3 (some 3)),
       .lit ['-'],
       .grp 3 (.seq (.rep digitC 4 (some 4)) .eos)]

/-- Result of running a piece of Python code: either it returns a value or an
uncaught exception propagates (which terminates the interpreter). -/
inductive PyResult (α : Type) where
  | raised : PyResult α
  | ret : α → PyResult α
deriving DecidableEq, Repr

/-- Timestamp as produced by `datetime.strptime` (naive datetime, minute precision). -/
structure DT where
  year : Nat
  month : Nat
  day : Nat
  hour : Nat
  minute : Nat
deriving DecidableEq, Repr

/-- Order key; on in-range field values this encoding is order-isomorphic to
Python's lexicographic `datetime` comparison. -/
def DT.key (d : DT) : Nat :=
  (((d.year * 13 + d.month) * 32 + d.day) * 24 + d.hour) * 60 + d.minute

/-- Python `student['datetime'] > prev_datetime`. -/
def dtGt (a b : DT) : Bool := decide (DT.key b < DT.key a)

/-- Lowercase month abbreviations in the order `_strptime` uses for `%b`. -/
def monthNames : List (List Char) :=
  ["jan", "feb", "mar", "apr", "may", "jun", "jul", "aug", "sep", "oct", "nov", "dec"].map
    String.toList

/-- Alternation of a nonempty list of alternatives, left to right. -/
def altChain : RE → List RE → RE
  | r, [] => r
  | r, r2 :: rs => .alt r (altChain r2 rs)

def oneNineC (c : Char) : Bool := '1' ≤ c && c ≤ '9'
def zeroFiveC (c : Char) : Bool := '0' ≤ c && c ≤ '5'

/-- `%b` of `_strptime` (lowercased): one of the twelve month abbreviations. -/
def monthRE : RE :=
  altChain (.lit "jan".toList)
    (["feb", "mar", "apr", "may", "jun", "jul", "aug", "sep", "oct", "nov", "dec"].map
      (fun s => RE.lit s.toList))

/-- `%d` of `_strptime`: `3[01]|[12]\d|0[1-9]|[1-9]`. -/
def dayRE : RE :=
  altChain (.seq (.cls (fun c => c == '3')) (.cls (fun c => c == '0' || c == '1')))
    [.seq (.cls (fun c => c == '1' || c == '2')) (.cls digitC),
     .seq (.cls (fun c => c == '0')) (.cls oneNineC),
     .cls oneNineC]

/-- `%I` of `_strptime`: `1[0-2]|0[1-9]|[1-9]`. -/
def hourRE : RE :=
  altChain (.seq (.cls (fun c => c == '1')) (.cls (fun c => c == '0' || c == '1' || c == '2')))
    [.seq (.cls (fun c => c == '0')) (.cls oneNineC),
     .cls oneNineC]

/-- `%M` of `_strptime`: `[0-5]\d|\d`. -/
def minuteRE : RE := .alt (.seq (.cls zeroFiveC) (.cls digitC)) (.cls digitC)

/-- A literal space in a `strptime` format becomes `\s+` in `_strptime`'s regex. -/
def sepRE : RE := .rep spaceC 1 none

/-- `%p` of `_strptime` (lowercased): `am|pm`. -/
def ampmRE : RE := .alt (.lit "am".toList) (.lit "pm".toList)

/-- The regex `_strptime` compiles for the format `'%b %d %Y %I %M %p'`
(case-insensitivity is modelled by lowercasing the input). -/
def strptimeRe : RE :=
  cat [.grp 1 monthRE, sepRE, .grp 2 dayRE, sepRE, .grp 3 (.rep digitC 4 (some 4)), sepRE,
       .grp 4 hourRE, sepRE, .grp 5 minuteRE, sepRE, .grp 6 ampmRE]

def digitVal (c : Char) : Nat := c.toNat - '0'.toNat

def digitsToNat (s : List Char) : Nat := s.foldl (fun a c => a * 10 + digitVal c) 0

/-- Python `int()` restricted to the nonnegative decimal numerals this program
feeds it (regex-captured digit strings); anything else raises, i.e. `none`. -/
def pyInt? (s : List Char) : Option Nat :=
  if s ≠ [] ∧ s.all digitC then some (digitsToNat s) else none

/-- Position (1-based) of a month abbreviation in `monthNames`
(`locale_time.a_month.index(...)` in `_strptime`). -/
def monthIndexGo : Nat → List (List Char) → List Char → Option Nat
  | _, [], _ => none
  | i, n :: ns, s => if n = s then some i else monthIndexGo (i + 1) ns s

def monthIndex (s : List Char) : Option Nat := monthIndexGo 1 monthNames s

def isLeap (y : Nat) : Bool := y % 4 == 0 && (y % 100 != 0 || y % 400 == 0)

def daysInMonth (y m : Nat) : Nat :=
  if m == 2 then (if isLeap y then 29 else 28)
  else if m == 4 || m == 6 || m == 9 || m == 11 then 30 else 31

/-- `datetime.strptime(s, '%b %d %Y %I %M %p')`: anchored match of the compiled
regex, a check that the whole input was consumed, numeric conversion of the
captured fields, 12-hour to 24-hour conversion, and the `datetime`
constructor's day-of-month and year range validation.  `none` = `ValueError`. -/
def strptimeBdYIMp (s : List Char) : Option DT :=
  match mmatch strptimeRe (s.map Char.toLower) [] with
  | [] => none
  | (r, caps) :: _ =>
    if r = [] then
      match getCap caps 1, getCap caps 2, getCap caps 3, getCap caps 4,
            getCap caps 5, getCap caps 6 with
      | some b, some d, some y, some i, some m, some p =>
        match monthIndex b, pyInt? d, pyInt? y, pyInt? i, pyInt? m with
        | some mon, some day, some year, some hr12, some minute =>
          let hour :=
            if p = "pm".toList then (if hr12 = 12 then 12 else hr12 + 12)
            else (if hr12 = 12 then 0 else hr12)
          if 1 ≤ year ∧ 1 ≤ day ∧ day ≤ daysInMonth year mon then
            some ⟨year, mon, day, hour, minute⟩
          else none
        | _, _, _, _, _ => none
      | _, _, _, _, _, _ => none
    else none

/-- Python `str()` applied to a group that may be `None`. -/
def pyStr : Option (List Char) → List Char
  | none => "None".toList
  | some s => s

def natStr (n : Nat) : List Char := (toString n).toList

/-- `get_datetime(grps)` from multi-clone.py: `hh = int(grps[5])//100`,
`mm = int(grps[5])%100`, then
`datetime.strptime(f'{grps[2]} {grps[3]} {grps[4]} {hh} {mm} {grps[6]}', '%b %d %Y %I %M %p')`.
`grps` is the `mat.groups()` tuple (0-based); `none` = an uncaught exception
(IndexError / TypeError on `int(None)` / ValueError from strptime). -/
def get_datetime (grps : List (Option (List Char))) : Option DT :=
  match grps.get? 5 with
  | none => none
  | some g5 =>
    match g5 with
    | none => none
    | some t =>
      match pyInt? t with
      | none => none
      | some tv =>
        let hh := tv / 100
        let mm := tv % 100
        match grps.get? 2, grps.get? 3, grps.get? 4, grps.get? 6 with
        | some g2, some g3, some g4, some g6 =>
          strptimeBdYIMp
            (pyStr g2 ++ ' ' :: (pyStr g3 ++ ' ' :: (pyStr g4 ++ ' ' ::
              (natStr hh ++ ' ' :: (natStr mm ++ ' ' :: pyStr g6)))))
        | _, _, _, _ => none

/-- The per-student dictionary of multi-clone.py.  `first`/`last` hold the
captured groups (which Python would store even if they were `None`);
`userid`, `repo`, `ssh_url` are absent until the HTML scan adds them. -/
structure Student where
  folder : List Char
  datetime : DT
  first : Option (List Char)
  last : Option (List Char)
  userid : Option (List Char)
  repo : Option (List Char)
  ssh_url : Option (List Char)
  status : List Char
deriving DecidableEq, Repr

/-- `extract_student_info`: regex search over the folder name; on a match,
`get_datetime` (whose `ValueError` would crash the program, hence `raised`),
then the student dictionary with status `'folder'`; on no match, `None`. -/
def extract_student_info (folderName : List Char) : PyResult (Option Student) :=
  match pySearch folderPat folderName with
  | none => .ret none
  | some caps =>
    match get_datetime [getCap caps 1, getCap caps 2, getCap caps 3, getCap caps 4,
                        getCap caps 5, getCap caps 6, getCap caps 7] with
    | none => .raised
    | some ts =>
      .ret (some
        { folder := folderName, datetime := ts,
          first := getCap caps 1, last := getCap caps 2,
          userid := none, repo := none, ssh_url := none,
          status := "folder".toList })

/-- The fixed SSH server alias (`server_name` in multi-clone.py). -/
def serverName : List Char := "git@github-fleming".toList

/-- The loop `for grp in mat.groups(): if 0 == str(grp).find("https://github.com"): url = str(grp); break`.
`none` means the loop fell through and `url` stayed unbound (a `NameError` at
the next line). -/
def findUrl : List (Option (List Char)) → Option (List Char)
  | [] => none
  | g :: gs => if startsWith "https://github.com".toList (pyStr g) then some (pyStr g) else findUrl gs

/-- Python `str.split(sep)` for a single-character separator: empty pieces kept. -/
def splitOnChar (c : Char) : List Char → List (List Char)
  | [] => [[]]
  | x :: xs =>
    match splitOnChar c xs with
    | [] => [[x]]
    | h :: t => if x == c then [] :: h :: t else (x :: h) :: t

/-- The loop `while re.search(r"\.git$", repo): repo = re.sub(r"\.git$", "", repo)`.
`\.git$` matches exactly when `.git` is a suffix, and the substitution removes
those four characters; the fuel argument bounds the iteration count by the
string length, which suffices since every iteration shortens the string. -/
def stripGitAux : Nat → List Char → List Char
  | 0, r => r
  | fuel + 1, r =>
    if ".git".toList.isSuffixOf r then stripGitAux fuel (r.take (r.length - 4)) else r

def stripGit (r : List Char) : List Char := stripGitAux r.length r

/-- `get_student_url(student, name)`: scan the file's lines; on the first line
matching the link pattern, pick the first capture group that starts with
`https://github.com` (an unbound `url`, i.e. `NameError`, if there is none),
split it on `/`, store owner, the `.git`-stripped repository name, the derived
SSH address and status `'github'`, and return; a non-matching line sets
`ssh_url = ""` and status `'no_url'` and scanning continues. -/
def get_student_url : Student → List (List Char) → PyResult Student
  | s, [] => .ret s
  | s, line :: rest =>
    match pySearch urlPat line with
    | some caps =>
      match findUrl [getCap caps 1, getCap caps 2] with
      | none => .raised
      | some url =>
        match (splitOnChar '/' url).get? 3 with
        | none => .raised
        | some own =>
          match (splitOnChar '/' url).get? 4 with
          | none => .raised
          | some raw =>
            .ret { s with userid := some own, repo := some (stripGit raw),
                          ssh_url := some (serverName ++ ':' ::
                            (own ++ '/' :: (stripGit raw ++ ".git".toList))),
                          status := "github".toList }
    | none =>
      get_student_url { s with ssh_url := some [], status := "no_url".toList } rest

/-- The file loop of `get_github_info` for one student: `get_student_url` is
called for every `*.html` file, even after an earlier file produced a match. -/
def processFiles : Student → List (List (List Char)) → PyResult Student
  | s, [] => .ret s
  | s, f :: fs =>
    match get_student_url s f with
    | .raised => .raised
    | .ret s2 => processFiles s2 fs

/-- `get_github_info(students)`: for each record still in status `'folder'`,
run the file loop; other records are left alone.  `filesOf` gives the lines of
the `*.html` files of a folder (the filesystem, an external collaborator). -/
def get_github_info (filesOf : List Char → List (List (List Char))) :
    List (List Char × Student) → PyResult (List (List Char × Student))
  | [] => .ret []
  | (k, s) :: rest =>
    match (if s.status = "folder".toList then processFiles s (filesOf s.folder) else .ret s) with
    | .raised => .raised
    | .ret s2 =>
      match get_github_info filesOf rest with
      | .raised => .raised
      | .ret rest2 => .ret ((k, s2) :: rest2)

/-- Outcome of one `subprocess.run(("git", "clone", url), ...)` invocation:
a completed process with its return code and captured stderr text, or the
`CalledProcessError` the script's `except` clause anticipates. -/
inductive GitResult where
  | completed : Nat → List Char → GitResult
  | calledProcessError : GitResult
deriving DecidableEq, Repr

/-- Console messages the clone phase can print. -/
inductive Msg where
  | skipNoUrl : List Char → Msg
  | stderrText : List Char → Msg
  | subprocessFailed : Option (List Char) → Option (List Char) → Msg
  | cannotResolve : Msg
deriving DecidableEq, Repr

def PyResult.mapv {α β : Type} (f : α → β) : PyResult α → PyResult β
  | .raised => .raised
  | .ret a => .ret (f a)

/-- `clone_repos(students)`: for each record in dictionary order, skip (with a
diagnostic) unless the status is `'github'`; otherwise run the external clone
command (modelled by the oracle `runGit`, applied to the SSH address and the
working directory) and record `'cloned'` or `'problem'`.  Returns the updated
dictionary (or `raised` for the `KeyError` of a github record without
`ssh_url`), the printed messages, and the list of SSH addresses actually
passed to the external command. -/
def clone_repos (runGit : List Char → List Char → GitResult) :
    List (List Char × Student) →
      PyResult (List (List Char × Student)) × List Msg × List (List Char)
  | [] => (.ret [], [], [])
  | (k, s) :: rest =>
    if s.status = "github".toList then
      match s.ssh_url with
      | none => (.raised, [], [])
      | some ssh =>
        let res :=
          match runGit ssh s.folder with
          | .completed 0 _ => ({ s with status := "cloned".toList }, ([] : List Msg))
          | .completed _ err => ({ s with status := "problem".toList }, [Msg.stderrText err])
          | .calledProcessError =>
            ({ s with status := "problem".toList }, [Msg.subprocessFailed s.first s.last])
        match clone_repos runGit rest with
        | (o, log, inv) => (o.mapv (fun l => (k, res.1) :: l), res.2 ++ log, ssh :: inv)
    else
      match clone_repos runGit rest with
      | (o, log, inv) => (o.mapv (fun l => (k, s) :: l), Msg.skipNoUrl k :: log, inv)

/-- The duplicate-resolution step of `main`'s folder loop: compute the
normalized key; if present, *delete* the old entry when the new timestamp is
strictly later; then unconditionally store the new record (`students[student_key] = student`
sits outside the datetime check).  `raised` models `None.lower()`. -/
def dictGet? (d : List (List Char × Student)) (k : List Char) : Option Student :=
  (d.find? (fun p => p.1 == k)).map (fun p => p.2)

def dictSet (d : List (List Char × Student)) (k : List Char) (v : Student) :
    List (List Char × Student) :=
  if (d.find? (fun p => p.1 == k)).isSome then
    d.map (fun p => if p.1 == k then (k, v) else p)
  else d ++ [(k, v)]

def dictDel (d : List (List Char × Student)) (k : List Char) : List (List Char × Student) :=
  d.filter (fun p => !(p.1 == k))

def addStudent (students : List (List Char × Student)) (st : Student) :
    PyResult (List (List Char × Student)) :=
  match st.first, st.last with
  | some fi, some la =>
    let key := fi.map Char.toLower ++ la.map Char.toLower
    let students2 :=
      match dictGet? students key with
      | some prev => if dtGt st.datetime prev.datetime then dictDel students key else students
      | none => students
    .ret (dictSet students2 key st)
  | _, _ => .raised

/-- The folder-scan loop of `main`: parse each folder name, skip non-matches,
insert matches with duplicate resolution. -/
def scanFoldersGo (acc : List (List Char × Student)) :
    List (List Char) → PyResult (List (List Char × Student))
  | [] => .ret acc
  | f :: rest =>
    match extract_student_info f with
    | .raised => .raised
    | .ret none => scanFoldersGo acc rest
    | .ret (some st) =>
      match addStudent acc st with
      | .raised => .raised
      | .ret acc2 => scanFoldersGo acc2 rest

def scanFolders (folders : List (List Char)) : PyResult (List (List Char × Student)) :=
  scanFoldersGo [] folders

/-- Observable outcome of a whole run: process exit code (1 when an uncaught
exception kills the interpreter), the final per-record report lines
(key, status), other console messages, and the clone commands invoked. -/
structure RunOutcome where
  exitCode : Nat
  report : List (List Char × List Char)
  log : List Msg
  invoked : List (List Char)
deriving DecidableEq, Repr

/-- `main()`: `resolved = false` is the `OSError` branch of `get_folder`
(diagnostic printed, `exit(0)`); otherwise scan folders, locate links, clone,
and print one `key: status` line per record, returning 0.  An uncaught
exception anywhere gives exit code 1 with no final report. -/
def mainRun (resolved : Bool) (folders : List (List Char))
    (filesOf : List Char → List (List (List Char)))
    (runGit : List Char → List Char → GitResult) : RunOutcome :=
  if resolved then
    match scanFolders folders with
    | .raised => ⟨1, [], [], []⟩
    | .ret students =>
      match get_github_info filesOf students with
      | .raised => ⟨1, [], [], []⟩
      | .ret students2 =>
        match clone_repos runGit students2 with
        | (.raised, log, inv) => ⟨1, [], log, inv⟩
        | (.ret students3, log, inv) =>
          ⟨0, students3.map (fun p => (p.1, p.2.status)), log, inv⟩
  else ⟨0, [], [Msg.cannotResolve], []⟩

/-- Python `str.strip(chars)`: remove leading and trailing characters drawn
from `chars`. -/
def pyStrip (cs : List Char) (s : List Char) : List Char :=
  ((s.dropWhile (fun c => c ∈ cs)).reverse.dropWhile (fun c => c ∈ cs)).reverse

/-- `phone_number_brackets(candidate)` from regex-fun.py.  On a match the
result is `'+1.' + area + '.' + group2 + '.' + group3` with `area` the first
group stripped of parentheses; otherwise the empty string.  `raised` would be
the `AttributeError` of `None.strip` for an unmatched group (which the pattern
cannot actually produce). -/
def phone_number_brackets (candidate : List Char) : PyResult (List Char) :=
  match pySearch phonePat candidate with
  | none => .ret []
  | some caps =>
    match getCap caps 1, getCap caps 2, getCap caps 3 with
    | some g1, some g2, some g3 =>
      .ret ("+1.".toList ++ pyStrip ['(', ')'] g1 ++ '.' :: (g2 ++ '.' :: g3))
    | _, _, _ => .raised

/-- Indices of the capturing groups occurring in a regex. -/
def reGroups : RE → List Nat
  | .seq a b => reGroups a ++ reGroups b
  | .alt a b => reGroups a ++ reGroups b
  | .grp i a => i :: reGroups a
  | _ => []

/-- The three shapes the last-name alternation can capture:  a lone period, a
single word, or two words joined by a hyphen. -/
def LastShape (d : List Char) : Prop :=
  d = ['.'] ∨ (d ≠ [] ∧ ∀ a ∈ d, wordC a = true) ∨
  ∃ w1 w2, w1 ≠ [] ∧ w2 ≠ [] ∧ (∀ a ∈ w1, wordC a = true) ∧
    (∀ a ∈ w2, wordC a = true) ∧ d = w1 ++ '-' :: w2

/-- A line is crash-free for `get_student_url`: if it matches the link
pattern, the group loop finds a `https://github.com`-prefixed group, so the
`url` variable is bound. -/
def lineOkB (line : List Char) : Bool :=
  match pySearch urlPat line with
  | some caps => (findUrl [getCap caps 1, getCap caps 2]).isSome
  | none => true

/- ### Basic list facts -/

theorem takeConsumed (d r : List Char) :
    (d ++ r).take ((d ++ r).length - r.length) = d := by
  rw [List.length_append, Nat.add_sub_cancel, List.take_left]

theorem all_p_take {p : Char → Bool} (s : List Char) (n : Nat)
    (h : n ≤ (s.takeWhile p).length) : ∀ a ∈ s.take n, p a = true := by
  intro a ha
  have h1 : s.take n = (s.takeWhile p).take n := by
    conv_lhs => rw [← List.takeWhile_append_dropWhile p s]
    rw [List.take_append_of_le_length h]
  rw [h1] at ha
  exact List.mem_takeWhile_imp (List.mem_of_mem_take ha)

theorem startsWith_append_self (l t : List Char) : startsWith l (l ++ t) = true := by
  induction l with
  | nil => rfl
  | cons x xs ih => simp [startsWith, ih]

theorem startsWith_exists {l s : List Char} (h : startsWith l s = true) :
    ∃ t, s = l ++ t := by
  induction l generalizing s with
  | nil => exact ⟨s, rfl⟩
  | cons x xs ih =>
    cases s with
    | nil => simp [startsWith] at h
    | cons y ys =>
      simp only [startsWith, Bool.and_eq_true, beq_iff_eq] at h
      obtain ⟨rfl, h2⟩ := h
      obtain ⟨t, rfl⟩ := ih h2
      exact ⟨t, rfl⟩

/- ### Characterizations of the matcher, one per constructor -/

theorem mem_mmatch_cls {p : Char → Bool} {s : List Char} {caps : Caps}
    {r : List Char} {c : Caps} :
    (r, c) ∈ mmatch (.cls p) s caps ↔ ∃ ch, s = ch :: r ∧ p ch = true ∧ c = caps := by
  cases s with
  | nil => simp [mmatch]
  | cons ch rest =>
    by_cases h : p ch
    · simp only [mmatch, h, if_pos, List.mem_singleton, Prod.mk.injEq]
      constructor
      · rintro ⟨rfl, rfl⟩; exact ⟨ch, rfl, h, rfl⟩
      · rintro ⟨ch2, heq, hp, rfl⟩
        cases heq; exact ⟨rfl, rfl⟩
    · simp only [mmatch, h, if_neg, Bool.false_eq_true, not_false_iff, List.not_mem_nil,
        false_iff]
      rintro ⟨ch2, heq, hp, rfl⟩
      cases heq; exact h hp

theorem mem_mmatch_lit {l s : List Char} {caps : Caps} {r : List Char} {c : Caps} :
    (r, c) ∈ mmatch (.lit l) s caps ↔ s = l ++ r ∧ c = caps := by
  constructor
  · intro h
    simp only [mmatch] at h
    split at h
    · rename_i hsw
      simp only [List.mem_singleton, Prod.mk.injEq] at h
      obtain ⟨rfl, rfl⟩ := h
      obtain ⟨t, rfl⟩ := startsWith_exists hsw
      rw [List.drop_left]
      exact ⟨rfl, rfl⟩
    · simp at h
  · rintro ⟨rfl, rfl⟩
    simp only [mmatch, startsWith_append_self, if_pos, List.drop_left, List.mem_singleton]

theorem mem_mmatch_seq {a b : RE} {s : List Char} {caps : Caps} {r : List Char} {c : Caps} :
    (r, c) ∈ mmatch (.seq a b) s caps ↔
      ∃ r1 c1, (r1, c1) ∈ mmatch a s caps ∧ (r, c) ∈ mmatch b r1 c1 := by
  simp only [mmatch, List.mem_flatMap]
  constructor
  · rintro ⟨⟨r1, c1⟩, h1, h2⟩; exact ⟨r1, c1, h1, h2⟩
  · rintro ⟨r1, c1, h1, h2⟩; exact ⟨⟨r1, c1⟩, h1, h2⟩

theorem mem_mmatch_alt {a b : RE} {s : List Char} {caps : Caps} {r : List Char} {c : Caps} :
    (r, c) ∈ mmatch (.alt a b) s caps ↔
      (r, c) ∈ mmatch a s caps ∨ (r, c) ∈ mmatch b s caps := by
  simp [mmatch]

theorem mem_mmatch_rep {p : Char → Bool} {lo : Nat} {hi : Option Nat} {s : List Char}
    {caps : Caps} {r : List Char} {c : Caps} :
    (r, c) ∈ mmatch (.rep p lo hi) s caps ↔
      ∃ n, lo ≤ n ∧ n ≤ repMax p hi s ∧ r = s.drop n ∧ c = caps := by
  simp only [mmatch, List.mem_map, List.mem_filter, List.mem_reverse, List.mem_range,
    Nat.lt_succ_iff, decide_eq_true_eq, Prod.mk.injEq]
  constructor
  · rintro ⟨n, ⟨hn, hlo⟩, rfl, rfl⟩; exact ⟨n, hlo, hn, rfl, rfl⟩
  · rintro ⟨n, hlo, hn, rfl, rfl⟩; exact ⟨n, ⟨hn, hlo⟩, rfl, rfl⟩

theorem mem_mmatch_grp {i : Nat} {a : RE} {s : List Char} {caps : Caps}
    {r : List Char} {c : Caps} :
    (r, c) ∈ mmatch (.grp i a) s caps ↔
      ∃ c1, (r, c1) ∈ mmatch a s caps ∧
        c = setCap i (s.take (s.length - r.length)) c1 := by
  simp only [mmatch, List.mem_map, Prod.mk.injEq]
  constructor
  · rintro ⟨⟨r1, c1⟩, h1, rfl, rfl⟩; exact ⟨c1, h1, rfl⟩
  · rintro ⟨c1, h1, rfl⟩; exact ⟨⟨r, c1⟩, h1, rfl, rfl⟩

theorem mem_mmatch_eos {s : List Char} {caps : Caps} {r : List Char} {c : Caps} :
    (r, c) ∈ mmatch .eos s caps ↔ r = s ∧ c = caps ∧ (s = [] ∨ s = ['\n']) := by
  simp only [mmatch]
  split
  · rename_i h
    simp only [List.mem_singleton, Prod.mk.injEq]
    constructor
    · rintro ⟨rfl, rfl⟩; exact ⟨rfl, rfl, h⟩
    · rintro ⟨rfl, rfl, _⟩; exact ⟨rfl, rfl⟩
  · rename_i h
    simp only [List.not_mem_nil, false_iff]
    rintro ⟨rfl, rfl, h2⟩
    exact h h2

/-- Greedy repetition, recast in terms of the consumed characters. -/
theorem rep_consumed {p : Char → Bool} {lo : Nat} {hi : Option Nat} {s : List Char}
    {caps : Caps} {r : List Char} {c : Caps}
    (h : (r, c) ∈ mmatch (.rep p lo hi) s caps) :
    ∃ d, s = d ++ r ∧ c = caps ∧ lo ≤ d.length ∧ (∀ a ∈ d, p a = true) ∧
      (∀ hx, hi = some hx → d.length ≤ hx) := by
  obtain ⟨n, hlo, hn, rfl, rfl⟩ := mem_mmatch_rep.mp h
  have htw : (s.takeWhile p).length ≤ s.length := (List.takeWhile_sublist p).length_le
  have hns : n ≤ s.length := by
    rcases hi with _ | hx
    · exact le_trans hn htw
    · exact le_trans hn (le_trans (min_le_right _ _) htw)
  have hlen : (s.take n).length = n := by simp [hns]
  refine ⟨s.take n, (List.take_append_drop n s).symm, rfl, ?_, ?_, ?_⟩
  · rw [hlen]; exact hlo
  · refine all_p_take s n ?_
    rcases hi with _ | hx
    · exact hn
    · exact le_trans hn (min_le_right _ _)
  · intro hx hhx
    subst hhx
    rw [hlen]
    exact le_trans hn (min_le_left _ _)

/- ### Capture bookkeeping -/

theorem getCap_setCap_self (i : Nat) (v : List Char) (c : Caps) :
    getCap (setCap i v c) i = some v := by
  simp [getCap, setCap, List.find?]

theorem getCap_setCap_ne {i j : Nat} (h : i ≠ j) (v : List Char) (c : Caps) :
    getCap (setCap j v c) i = getCap c i := by
  have hb : (j == i) = false := beq_eq_false_iff_ne.mpr (Ne.symm h)
  simp [getCap, setCap, List.find?, hb]

/-- A match touches only the capture groups occurring in the regex. -/
theorem mmatch_preserves_caps (re : RE) :
    ∀ {s : List Char} {caps : Caps} {r : List Char} {c : Caps},
      (r, c) ∈ mmatch re s caps → ∀ i, i ∉ reGroups re → getCap c i = getCap caps i := by
  induction re with
  | cls p =>
    intro s caps r c h i _
    obtain ⟨_, _, _, rfl⟩ := mem_mmatch_cls.mp h
    rfl
  | lit l =>
    intro s caps r c h i _
    obtain ⟨_, rfl⟩ := mem_mmatch_lit.mp h
    rfl
  | seq a b iha ihb =>
    intro s caps r c h i hi
    simp only [reGroups, List.mem_append] at hi
    push_neg at hi
    obtain ⟨r1, c1, h1, h2⟩ := mem_mmatch_seq.mp h
    rw [ihb h2 i hi.2, iha h1 i hi.1]
  | alt a b iha ihb =>
    intro s caps r c h i hi
    simp only [reGroups, List.mem_append] at hi
    push_neg at hi
    rcases mem_mmatch_alt.mp h with h1 | h1
    · exact iha h1 i hi.1
    · exact ihb h1 i hi.2
  | rep p lo hi' =>
    intro s caps r c h i _
    obtain ⟨_, _, _, _, rfl⟩ := mem_mmatch_rep.mp h
    rfl
  | grp j a iha =>
    intro s caps r c h i hi
    simp only [reGroups, List.mem_cons] at hi
    push_neg at hi
    obtain ⟨c1, h1, rfl⟩ := mem_mmatch_grp.mp h
    rw [getCap_setCap_ne hi.1, iha h1 i hi.2]
  | eos =>
    intro s caps r c h i _
    obtain ⟨_, rfl, _⟩ := mem_mmatch_eos.mp h
    rfl

/-- Inverting a successful `re.search`: the captures come from the head of the
match list at some suffix of the input. -/
theorem pySearch_some {re : RE} :
    ∀ {s : List Char} {caps : Caps}, pySearch re s = some caps →
      ∃ pre s2 r l, s = pre ++ s2 ∧ mmatch re s2 [] = (r, caps) :: l := by
  intro s
  induction s with
  | nil =>
    intro caps h
    simp only [pySearch] at h
    cases hm : mmatch re [] [] with
    | nil => rw [hm] at h; exact absurd h (by simp)
    | cons hd tl =>
      rw [hm] at h
      obtain ⟨r0, c0⟩ := hd
      simp only [Option.some.injEq] at h
      subst h
      exact ⟨[], [], r0, tl, rfl, hm⟩
  | cons x rest ih =>
    intro caps h
    simp only [pySearch] at h
    cases hm : mmatch re (x :: rest) [] with
    | nil =>
      rw [hm] at h
      obtain ⟨pre, s2, r, l, heq, hmm⟩ := ih h
      exact ⟨x :: pre, s2, r, l, by rw [heq]; rfl, hmm⟩
    | cons hd tl =>
      rw [hm] at h
      obtain ⟨r0, c0⟩ := hd
      simp only [Option.some.injEq] at h
      subst h
      exact ⟨[], x :: rest, r0, tl, rfl, hm⟩

theorem getCap_nil (i : Nat) : getCap [] i = none := rfl

/-- Inversion of a successful search for the folder pattern: groups 1 and 2
always participate, and the last-name capture has one of the three shapes of
its alternation. -/
theorem folderPat_caps {line : List Char} {caps : Caps}
    (h : pySearch folderPat line = some caps) :
    (∃ w, getCap caps 1 = some w) ∧ ∃ d, getCap caps 2 = some d ∧ LastShape d := by
  obtain ⟨pre, s2, r, l, _, hm⟩ := pySearch_some h
  have hmem : (r, caps) ∈ mmatch folderPat s2 [] := by
    rw [hm]; exact List.mem_cons_self _ _
  simp only [folderPat, cat] at hmem
  rw [mem_mmatch_seq] at hmem; obtain ⟨s3, c3, _, hmem⟩ := hmem
  rw [mem_mmatch_seq] at hmem; obtain ⟨s4, c4, _, hmem⟩ := hmem
  rw [mem_mmatch_seq] at hmem; obtain ⟨s5, c5, _, hmem⟩ := hmem
  rw [mem_mmatch_seq] at hmem; obtain ⟨s6, c6, _, hmem⟩ := hmem
  rw [mem_mmatch_seq] at hmem; obtain ⟨s7, c7, _, hmem⟩ := hmem
  rw [mem_mmatch_seq] at hmem; obtain ⟨s8, c8, _, hmem⟩ := hmem
  rw [mem_mmatch_seq] at hmem; obtain ⟨s9, c9, h9, hmem⟩ := hmem
  have hcap1tail : getCap caps 1 = getCap c9 1 :=
    mmatch_preserves_caps _ hmem 1 (by decide)
  obtain ⟨c9i, h9i, rfl⟩ := mem_mmatch_grp.mp h9
  rw [mem_mmatch_seq] at hmem; obtain ⟨s10, c10, h10, hmem⟩ := hmem
  rw [mem_mmatch_seq] at hmem; obtain ⟨s11, c11, h11, hmem⟩ := hmem
  have hcap2tail : getCap caps 2 = getCap c11 2 :=
    mmatch_preserves_caps _ hmem 2 (by decide)
  obtain ⟨c11i, h11i, rfl⟩ := mem_mmatch_grp.mp h11
  refine ⟨⟨_, by rw [hcap1tail, getCap_setCap_self]⟩, ?_⟩
  obtain ⟨rfl, rfl⟩ := mem_mmatch_lit.mp h10
  rcases mem_mmatch_alt.mp h11i with hA | h'
  · obtain ⟨hEq, rfl⟩ := mem_mmatch_lit.mp hA
    refine ⟨['.'], ?_, Or.inl rfl⟩
    rw [hcap2tail, hEq, takeConsumed, getCap_setCap_self]
  · rcases mem_mmatch_alt.mp h' with hB | hC
    · obtain ⟨dd, hEq, rfl, hlen, hword, _⟩ := rep_consumed hB
      refine ⟨dd, ?_, Or.inr (Or.inl ⟨?_, hword⟩)⟩
      · rw [hcap2tail, hEq, takeConsumed, getCap_setCap_self]
      · exact List.length_pos.mp (by omega)
    · obtain ⟨t1, cA, hC1, hC2⟩ := mem_mmatch_seq.mp hC
      obtain ⟨w1, hEq1, rfl, hlen1, hword1, _⟩ := rep_consumed hC1
      obtain ⟨t2, cB, hC3, hC4⟩ := mem_mmatch_seq.mp hC2
      obtain ⟨hEq2, rfl⟩ := mem_mmatch_lit.mp hC3
      obtain ⟨w2, hEq3, rfl, hlen2, hword2, _⟩ := rep_consumed hC4
      have hEq : s10 = (w1 ++ '-' :: w2) ++ s11 := by
        rw [hEq1, hEq2, hEq3]; simp [List.append_assoc]
      refine ⟨w1 ++ '-' :: w2, ?_,
        Or.inr (Or.inr ⟨w1, w2, List.length_pos.mp (by omega),
          List.length_pos.mp (by omega), hword1, hword2, rfl⟩)⟩
      rw [hcap2tail, hEq, takeConsumed, getCap_setCap_self]

/-- Inversion of a successful search for the link pattern: either the `href`
alternative matched (group 1 literally starts with `https://github.com/`), or
the paragraph alternative matched (group 2 starts with `https://github`, then
an arbitrary non-newline character where the unescaped dot sits, then `com/`). -/
theorem urlPat_caps {line : List Char} {caps : Caps}
    (h : pySearch urlPat line = some caps) :
    (∃ a b : List Char, a ≠ [] ∧ b ≠ [] ∧
       getCap caps 1 = some ("https://github.com/".toList ++ (a ++ '/' :: b)) ∧
       getCap caps 2 = none) ∨
    (∃ (ch : Char) (a b : List Char), a ≠ [] ∧ b ≠ [] ∧
       getCap caps 2 = some ("https://github".toList ++ ch ::
         ("com/".toList ++ (a ++ '/' :: b))) ∧
       getCap caps 1 = none) := by
  obtain ⟨pre, s2, r, l, _, hm⟩ := pySearch_some h
  have hmem : (r, caps) ∈ mmatch urlPat s2 [] := by
    rw [hm]; exact List.mem_cons_self _ _
  rw [urlPat, mem_mmatch_alt] at hmem
  rcases hmem with hmem | hmem
  · left
    simp only [urlPatA, cat] at hmem
    rw [mem_mmatch_seq] at hmem; obtain ⟨t1, c1, hL1, hmem⟩ := hmem
    obtain ⟨rfl, rfl⟩ := mem_mmatch_lit.mp hL1
    rw [mem_mmatch_seq] at hmem; obtain ⟨t2, c2, hL2, hmem⟩ := hmem
    obtain ⟨rfl, rfl⟩ := mem_mmatch_lit.mp hL2
    rw [mem_mmatch_seq] at hmem; obtain ⟨t3, c3, hG, hmem⟩ := hmem
    obtain ⟨_, rfl⟩ := mem_mmatch_lit.mp hmem
    obtain ⟨c3i, hI, rfl⟩ := mem_mmatch_grp.mp hG
    rw [mem_mmatch_seq] at hI; obtain ⟨u1, d1, hI1, hI⟩ := hI
    obtain ⟨rfl, rfl⟩ := mem_mmatch_lit.mp hI1
    rw [mem_mmatch_seq] at hI; obtain ⟨u2, d2, hI2, hI⟩ := hI
    obtain ⟨a, rfl, rfl, hlena, hdota, _⟩ := rep_consumed hI2
    rw [mem_mmatch_seq] at hI; obtain ⟨u3, d3, hI3, hI⟩ := hI
    obtain ⟨rfl, rfl⟩ := mem_mmatch_lit.mp hI3
    obtain ⟨b, rfl, rfl, hlenb, hdotb, _⟩ := rep_consumed hI
    have hshape : "https://github.com/".toList ++ (a ++ (['/'] ++ (b ++ t3))) =
        ("https://github.com/".toList ++ (a ++ '/' :: b)) ++ t3 := by
      simp [List.append_assoc]
    refine ⟨a, b, List.length_pos.mp (by omega), List.length_pos.mp (by omega), ?_, ?_⟩
    · rw [hshape, takeConsumed, getCap_setCap_self]
    · rw [getCap_setCap_ne (by decide), getCap_nil]
  · right
    simp only [urlPatB, cat] at hmem
    rw [mem_mmatch_seq] at hmem; obtain ⟨t1, c1, hL1, hmem⟩ := hmem
    obtain ⟨rfl, rfl⟩ := mem_mmatch_lit.mp hL1
    rw [mem_mmatch_seq] at hmem; obtain ⟨t2, c2, hG, hmem⟩ := hmem
    obtain ⟨_, rfl⟩ := mem_mmatch_lit.mp hmem
    obtain ⟨c2i, hI, rfl⟩ := mem_mmatch_grp.mp hG
    rw [mem_mmatch_seq] at hI; obtain ⟨u1, d1, hI1, hI⟩ := hI
    obtain ⟨rfl, rfl⟩ := mem_mmatch_lit.mp hI1
    rw [mem_mmatch_seq] at hI; obtain ⟨u2, d2, hI2, hI⟩ := hI
    obtain ⟨ch, rfl, hch, rfl⟩ := mem_mmatch_cls.mp hI2
    rw [mem_mmatch_seq] at hI; obtain ⟨u3, d3, hI3, hI⟩ := hI
    obtain ⟨rfl, rfl⟩ := mem_mmatch_lit.mp hI3
    rw [mem_mmatch_seq] at hI; obtain ⟨u4, d4, hI4, hI⟩ := hI
    obtain ⟨a, rfl, rfl, hlena, hdota, _⟩ := rep_consumed hI4
    rw [mem_mmatch_seq] at hI; obtain ⟨u5, d5, hI5, hI⟩ := hI
    obtain ⟨rfl, rfl⟩ := mem_mmatch_lit.mp hI5
    obtain ⟨b, rfl, rfl, hlenb, hdotb, _⟩ := rep_consumed hI
    have hshape : "https://github".toList ++
        ch :: ("com/".toList ++ (a ++ (['/'] ++ (b ++ t2)))) =
        ("https://github".toList ++ ch :: ("com/".toList ++ (a ++ '/' :: b))) ++ t2 := by
      simp [List.append_assoc]
    refine ⟨ch, a, b, List.length_pos.mp (by omega), List.length_pos.mp (by omega), ?_, ?_⟩
    · rw [hshape, takeConsumed, getCap_setCap_self]
    · rw [getCap_setCap_ne (by decide), getCap_nil]

/-- Inversion of a successful search for the phone pattern: the three groups
are a parenthesised digit sequence (possibly empty), exactly three digits, and
exactly four digits that end the input up to an optional final newline. -/
theorem phonePat_caps {s : List Char} {caps : Caps}
    (h : pySearch phonePat s = some caps) :
    ∃ ds d3 d4 rest pre,
      getCap caps 1 = some ('(' :: (ds ++ [')'])) ∧ (∀ a ∈ ds, digitC a = true) ∧
      getCap caps 2 = some d3 ∧ d3.length = 3 ∧ (∀ a ∈ d3, digitC a = true) ∧
      getCap caps 3 = some d4 ∧ d4.length = 4 ∧ (∀ a ∈ d4, digitC a = true) ∧
      s = pre ++ (d4 ++ rest) ∧ (rest = [] ∨ rest = ['\n']) := by
  obtain ⟨pre0, s2, r, l, hs, hm⟩ := pySearch_some h
  have hmem : (r, caps) ∈ mmatch phonePat s2 [] := by
    rw [hm]; exact List.mem_cons_self _ _
  simp only [phonePat, cat] at hmem
  rw [mem_mmatch_seq] at hmem; obtain ⟨t1, c1, hG1, hmem⟩ := hmem
  have hcap1 : getCap caps 1 = getCap c1 1 :=
    mmatch_preserves_caps _ hmem 1 (by decide)
  obtain ⟨c1i, hI, rfl⟩ := mem_mmatch_grp.mp hG1
  rw [mem_mmatch_seq] at hI; obtain ⟨u1, d1, hI1, hI⟩ := hI
  obtain ⟨rfl, rfl⟩ := mem_mmatch_lit.mp hI1
  rw [mem_mmatch_seq] at hI; obtain ⟨u2, d2, hI2, hI⟩ := hI
  obtain ⟨ds, rfl, rfl, _, hdigds, _⟩ := rep_consumed hI2
  obtain ⟨hu2, rfl⟩ := mem_mmatch_lit.mp hI
  rw [mem_mmatch_seq] at hmem; obtain ⟨t2, c2, hSEP, hmem⟩ := hmem
  obtain ⟨sp, rfl, rfl, _, hspc, _⟩ := rep_consumed hSEP
  rw [mem_mmatch_seq] at hmem; obtain ⟨t3, c3, hG2, hmem⟩ := hmem
  have hcap2 : getCap caps 2 = getCap c3 2 :=
    mmatch_preserves_caps _ hmem 2 (by decide)
  obtain ⟨c3i, hI2', rfl⟩ := mem_mmatch_grp.mp hG2
  obtain ⟨d3v, rfl, rfl, hlen3lo, hdig3, hlen3hi⟩ := rep_consumed hI2'
  have hlen3 : d3v.length = 3 := le_antisymm (hlen3hi 3 rfl) hlen3lo
  rw [mem_mmatch_seq] at hmem; obtain ⟨t4, c4, hL, hmem⟩ := hmem
  obtain ⟨rfl, rfl⟩ := mem_mmatch_lit.mp hL
  obtain ⟨c5i, hI3, rfl⟩ := mem_mmatch_grp.mp hmem
  obtain ⟨u, d5, hRep, hEos⟩ := mem_mmatch_seq.mp hI3
  obtain ⟨d4v, rfl, rfl, hlen4lo, hdig4, hlen4hi⟩ := rep_consumed hRep
  obtain ⟨rfl, rfl, hend⟩ := mem_mmatch_eos.mp hEos
  have hlen4 : d4v.length = 4 := le_antisymm (hlen4hi 4 rfl) hlen4lo
  refine ⟨ds, d3v, d4v, r,
    pre0 ++ ('(' :: (ds ++ [')']) ++ (sp ++ (d3v ++ ['-']))), ?_, hdigds, ?_, hlen3,
    hdig3, ?_, hlen4, hdig4, ?_, hend⟩
  · rw [hcap1, getCap_setCap_self, hu2]
    have heq : ['('] ++ (ds ++ ([')'] ++ (sp ++ (d3v ++ (['-'] ++ (d4v ++ r)))))) =
        ('(' :: (ds ++ [')'])) ++ (sp ++ (d3v ++ (['-'] ++ (d4v ++ r)))) := by
      simp [List.append_assoc]
    rw [heq, takeConsumed]
  · rw [hcap2, getCap_setCap_self, takeConsumed]
  · rw [getCap_setCap_self, takeConsumed]
  · rw [hs, hu2]
    simp [List.append_assoc]

/- ### Helpers about splitting, prefixes, and the repository-name trim -/

theorem splitOnChar_ne_nil (c : Char) (l : List Char) : splitOnChar c l ≠ [] := by
  cases l with
  | nil => simp [splitOnChar]
  | cons x xs =>
    simp only [splitOnChar]
    rcases splitOnChar c xs with _ | ⟨h, t⟩
    · simp
    · by_cases hx : x == c <;> simp [hx]

theorem splitOnChar_length (c : Char) (l : List Char) :
    (splitOnChar c l).length = l.count c + 1 := by
  induction l with
  | nil => simp [splitOnChar]
  | cons x xs ih =>
    simp only [splitOnChar]
    rcases hsp : splitOnChar c xs with _ | ⟨h, t⟩
    · exact absurd hsp (splitOnChar_ne_nil c xs)
    · by_cases hx : x == c
      · have : x = c := eq_of_beq hx
        subst this
        simp only [hx, if_pos, List.length_cons, List.count_cons_self]
        rw [hsp] at ih
        simp only [List.length_cons] at ih
        omega
      · have hxc : c ≠ x := fun h2 => hx (beq_iff_eq.mpr h2.symm)
        have hx' : (x == c) = false := by simpa using fun h2 => hx (beq_iff_eq.mpr h2)
        simp only [hx', Bool.false_eq_true, if_neg, not_false_iff, List.length_cons,
          List.count_cons_of_ne hxc]
        rw [hsp] at ih
        simp only [List.length_cons] at ih
        omega

theorem urlSplit_len {a b : List Char} :
    5 ≤ (splitOnChar '/' ("https://github.com/".toList ++ (a ++ '/' :: b))).length := by
  rw [splitOnChar_length]
  have h1 : 4 ≤ ("https://github.com/".toList ++ (a ++ '/' :: b)).count '/' := by
    simp [List.count_append]
    omega
  omega

theorem startsWith_append_both (p q t : List Char) :
    startsWith (p ++ q) (p ++ t) = startsWith q t := by
  induction p with
  | nil => rfl
  | cons x xs ih => simp [startsWith, ih]

/-- When the group loop of `get_student_url` finds a URL, the URL has the
slash structure of the matched alternative (in particular the unescaped dot of
the second alternative must have matched a literal dot). -/
theorem findUrl_shape {line : List Char} {caps : Caps} {url : List Char}
    (h : pySearch urlPat line = some caps)
    (hf : findUrl [getCap caps 1, getCap caps 2] = some url) :
    ∃ a b, a ≠ [] ∧ b ≠ [] ∧ url = "https://github.com/".toList ++ (a ++ '/' :: b) := by
  rcases urlPat_caps h with ⟨a, b, ha, hb, h1, h2⟩ | ⟨ch, a, b, ha, hb, h2, h1⟩
  · rw [h1, h2] at hf
    have hpref : startsWith "https://github.com".toList
        (pyStr (some ("https://github.com/".toList ++ (a ++ '/' :: b)))) = true := by
      have : "https://github.com/".toList ++ (a ++ '/' :: b) =
          "https://github.com".toList ++ (['/'] ++ (a ++ '/' :: b)) := by rfl
      rw [pyStr, this]
      exact startsWith_append_self _ _
    rw [findUrl, if_pos hpref] at hf
    simp only [pyStr, Option.some.injEq] at hf
    exact ⟨a, b, ha, hb, hf.symm⟩
  · rw [h1, h2] at hf
    have hnone : startsWith "https://github.com".toList (pyStr none) = false := by decide
    rw [findUrl, hnone] at hf
    simp only [Bool.false_eq_true, if_neg, not_false_iff] at hf
    rw [findUrl] at hf
    by_cases hsw : startsWith "https://github.com".toList
        (pyStr (some ("https://github".toList ++ ch ::
          ("com/".toList ++ (a ++ '/' :: b))))) = true
    · have hch : ch = '.' := by
        have heq : ("https://github".toList ++ ch :: ("com/".toList ++ (a ++ '/' :: b))) =
            "https://github".toList ++ (ch :: ("com/".toList ++ (a ++ '/' :: b))) := rfl
        have hsplit : ("https://github.com" : String).toList =
            "https://github".toList ++ ".com".toList := by decide
        rw [pyStr, heq, hsplit, startsWith_append_both] at hsw
        simp only [startsWith, Bool.and_eq_true, beq_iff_eq] at hsw
        exact hsw.1.symm
      subst hch
      rw [if_pos hsw] at hf
      simp only [pyStr, Option.some.injEq] at hf
      refine ⟨a, b, ha, hb, ?_⟩
      rw [← hf]
      rfl
    · rw [if_neg hsw] at hf
      simp [findUrl] at hf

theorem urlSplit_get?34 {url : List Char}
    (h : ∃ a b : List Char, a ≠ [] ∧ b ≠ [] ∧
      url = "https://github.com/".toList ++ (a ++ '/' :: b)) :
    (splitOnChar '/' url).get? 3 ≠ none ∧ (splitOnChar '/' url).get? 4 ≠ none := by
  obtain ⟨a, b, _, _, rfl⟩ := h
  have h5 := urlSplit_len (a := a) (b := b)
  constructor
  · rw [Ne, List.get?_eq_none]
    omega
  · rw [Ne, List.get?_eq_none]
    omega

theorem stripGitAux_no_suffix :
    ∀ (fuel : Nat) (r : List Char), r.length ≤ fuel →
      ".git".toList.isSuffixOf (stripGitAux fuel r) = false := by
  intro fuel
  induction fuel with
  | zero =>
    intro r hr
    have : r = [] := List.length_eq_zero.mp (Nat.le_zero.mp hr)
    subst this
    decide
  | succ n ih =>
    intro r hr
    by_cases h : ".git".toList.isSuffixOf r
    · have hlen : 4 ≤ r.length := by
        have := (List.isSuffixOf_iff_suffix.mp h).length_le
        simpa using this
      rw [stripGitAux, if_pos h]
      refine ih _ ?_
      have : (r.take (r.length - 4)).length = r.length - 4 := by
        rw [List.length_take]
        omega
      omega
    · rw [stripGitAux, if_neg h]
      exact Bool.not_eq_true _ ▸ (by simpa using h)

theorem stripGit_no_suffix (r : List Char) :
    ".git".toList.isSuffixOf (stripGit r) = false :=
  stripGitAux_no_suffix r.length r le_rfl

theorem pyInt?_cons_zero {t : List Char} (h : t ≠ []) :
    pyInt? ('0' :: t) = pyInt? t := by
  simp only [pyInt?]
  have hdig : ('0' :: t).all digitC = t.all digitC := by
    simp [List.all_cons, digitC]
  have hz : digitsToNat ('0' :: t) = digitsToNat t := by
    simp [digitsToNat, digitVal]
  by_cases ht : t.all digitC
  · rw [if_pos ⟨List.cons_ne_nil _ _, by rw [hdig]; exact ht⟩, if_pos ⟨h, ht⟩, hz]
  · rw [if_neg, if_neg]
    · exact fun hc => ht hc.2
    · intro hc
      rw [hdig] at hc
      exact ht hc.2

/-- Full behaviour of the clone phase on a well-formed dictionary (every
`'github'` record has an SSH address): no exception, one output record per
input record in order, skipped records unchanged with their diagnostic,
failed clones marked `'problem'` with the stderr text printed, and every
invocation of the external command coming from a `'github'` record. -/
theorem clone_repos_spec (runGit : List Char → List Char → GitResult) :
    ∀ students : List (List Char × Student),
      (∀ p ∈ students, p.2.status = "github".toList → p.2.ssh_url ≠ none) →
      ∃ out log inv, clone_repos runGit students = (.ret out, log, inv) ∧
        out.map Prod.fst = students.map Prod.fst ∧
        (∀ k s, (k, s) ∈ students → s.status ≠ "github".toList →
           (k, s) ∈ out ∧ Msg.skipNoUrl k ∈ log) ∧
        (∀ k s ssh rc err, (k, s) ∈ students → s.status = "github".toList →
           s.ssh_url = some ssh → runGit ssh s.folder = .completed rc err → rc ≠ 0 →
           (k, { s with status := "problem".toList }) ∈ out ∧ Msg.stderrText err ∈ log) ∧
        (∀ ssh, ssh ∈ inv → ∃ p, p ∈ students ∧ p.2.status = "github".toList ∧
           p.2.ssh_url = some ssh) := by
  intro students
  induction students with
  | nil =>
    intro _
    exact ⟨[], [], [], rfl, rfl,
      fun k s h _ => absurd h (List.not_mem_nil _),
      fun k s ssh rc err h _ _ _ _ => absurd h (List.not_mem_nil _),
      fun ssh h => absurd h (List.not_mem_nil _)⟩
  | cons hd rest ih =>
    obtain ⟨k, s⟩ := hd
    intro hwf
    have hwfr : ∀ p ∈ rest, p.2.status = "github".toList → p.2.ssh_url ≠ none :=
      fun p hp => hwf p (List.mem_cons_of_mem _ hp)
    obtain ⟨out, log, inv, heq, hkeys, hskip, hfail, hinv⟩ := ih hwfr
    by_cases hst : s.status = "github".toList
    · have hssh := hwf (k, s) (List.mem_cons_self _ _) hst
      cases hsu : s.ssh_url with
      | none => exact absurd hsu hssh
      | some ssh =>
        cases hg : runGit ssh s.folder with
        | calledProcessError =>
          refine ⟨(k, { s with status := "problem".toList }) :: out,
            Msg.subprocessFailed s.first s.last :: log, ssh :: inv, ?_, ?_, ?_, ?_, ?_⟩
          · simp only [clone_repos, hst, if_pos, hsu, hg, heq, PyResult.mapv,
              List.singleton_append, List.nil_append]
          · simp [hkeys]
          · rintro k0 s0 hmem hne
            rcases List.mem_cons.mp hmem with hh | ht
            · rw [Prod.mk.injEq] at hh
              obtain ⟨rfl, rfl⟩ := hh
              exact absurd hst hne
            · obtain ⟨h1, h2⟩ := hskip k0 s0 ht hne
              exact ⟨List.mem_cons_of_mem _ h1, List.mem_cons_of_mem _ h2⟩
          · rintro k0 s0 ssh0 rc0 err0 hmem hst0 hsu0 hg0 hrc0
            rcases List.mem_cons.mp hmem with hh | ht
            · rw [Prod.mk.injEq] at hh
              obtain ⟨rfl, rfl⟩ := hh
              rw [hsu] at hsu0
              injection hsu0 with h
              subst h
              rw [hg] at hg0
              exact absurd hg0 (by simp)
            · obtain ⟨h1, h2⟩ := hfail k0 s0 ssh0 rc0 err0 ht hst0 hsu0 hg0 hrc0
              exact ⟨List.mem_cons_of_mem _ h1, List.mem_cons_of_mem _ h2⟩
          · rintro ssh0 hmem
            rcases List.mem_cons.mp hmem with rfl | ht
            · exact ⟨(k, s), List.mem_cons_self _ _, hst, hsu⟩
            · obtain ⟨p, hp, h1, h2⟩ := hinv ssh0 ht
              exact ⟨p, List.mem_cons_of_mem _ hp, h1, h2⟩
        | completed rc err =>
          cases rc with
          | zero =>
            refine ⟨(k, { s with status := "cloned".toList }) :: out, log, ssh :: inv,
              ?_, ?_, ?_, ?_, ?_⟩
            · simp only [clone_repos, hst, if_pos, hsu, hg, heq, PyResult.mapv,
              List.singleton_append, List.nil_append]
            · simp [hkeys]
            · rintro k0 s0 hmem hne
              rcases List.mem_cons.mp hmem with hh | ht
              · rw [Prod.mk.injEq] at hh
                obtain ⟨rfl, rfl⟩ := hh
                exact absurd hst hne
              · obtain ⟨h1, h2⟩ := hskip k0 s0 ht hne
                exact ⟨List.mem_cons_of_mem _ h1, h2⟩
            · rintro k0 s0 ssh0 rc0 err0 hmem hst0 hsu0 hg0 hrc0
              rcases List.mem_cons.mp hmem with hh | ht
              · rw [Prod.mk.injEq] at hh
                obtain ⟨rfl, rfl⟩ := hh
                rw [hsu] at hsu0
                injection hsu0 with h
                subst h
                rw [hg] at hg0
                injection hg0 with h1 h2
                exact absurd h1.symm hrc0
              · obtain ⟨h1, h2⟩ := hfail k0 s0 ssh0 rc0 err0 ht hst0 hsu0 hg0 hrc0
                exact ⟨List.mem_cons_of_mem _ h1, h2⟩
            · rintro ssh0 hmem
              rcases List.mem_cons.mp hmem with rfl | ht
              · exact ⟨(k, s), List.mem_cons_self _ _, hst, hsu⟩
              · obtain ⟨p, hp, h1, h2⟩ := hinv ssh0 ht
                exact ⟨p, List.mem_cons_of_mem _ hp, h1, h2⟩
          | succ n =>
            refine ⟨(k, { s with status := "problem".toList }) :: out,
              Msg.stderrText err :: log, ssh :: inv, ?_, ?_, ?_, ?_, ?_⟩
            · simp only [clone_repos, hst, if_pos, hsu, hg, heq, PyResult.mapv,
              List.singleton_append, List.nil_append]
            · simp [hkeys]
            · rintro k0 s0 hmem hne
              rcases List.mem_cons.mp hmem with hh | ht
              · rw [Prod.mk.injEq] at hh
                obtain ⟨rfl, rfl⟩ := hh
                exact absurd hst hne
              · obtain ⟨h1, h2⟩ := hskip k0 s0 ht hne
                exact ⟨List.mem_cons_of_mem _ h1, List.mem_cons_of_mem _ h2⟩
            · rintro k0 s0 ssh0 rc0 err0 hmem hst0 hsu0 hg0 hrc0
              rcases List.mem_cons.mp hmem with hh | ht
              · rw [Prod.mk.injEq] at hh
                obtain ⟨rfl, rfl⟩ := hh
                rw [hsu] at hsu0
                injection hsu0 with h
                subst h
                rw [hg] at hg0
                injection hg0 with h1 h2
                subst h1; subst h2
                exact ⟨List.mem_cons_self _ _, List.mem_cons_self _ _⟩
              · obtain ⟨h1, h2⟩ := hfail k0 s0 ssh0 rc0 err0 ht hst0 hsu0 hg0 hrc0
                exact ⟨List.mem_cons_of_mem _ h1, List.mem_cons_of_mem _ h2⟩
            · rintro ssh0 hmem
              rcases List.mem_cons.mp hmem with rfl | ht
              · exact ⟨(k, s), List.mem_cons_self _ _, hst, hsu⟩
              · obtain ⟨p, hp, h1, h2⟩ := hinv ssh0 ht
                exact ⟨p, List.mem_cons_of_mem _ hp, h1, h2⟩
    · refine ⟨(k, s) :: out, Msg.skipNoUrl k :: log, inv, ?_, ?_, ?_, ?_, ?_⟩
      · simp only [clone_repos, hst, if_neg, not_false_iff, heq, PyResult.mapv]
      · simp [hkeys]
      · rintro k0 s0 hmem hne
        rcases List.mem_cons.mp hmem with hh | ht
        · rw [Prod.mk.injEq] at hh
          obtain ⟨rfl, rfl⟩ := hh
          exact ⟨List.mem_cons_self _ _, List.mem_cons_self _ _⟩
        · obtain ⟨h1, h2⟩ := hskip k0 s0 ht hne
          exact ⟨List.mem_cons_of_mem _ h1, List.mem_cons_of_mem _ h2⟩
      · rintro k0 s0 ssh0 rc0 err0 hmem hst0 hsu0 hg0 hrc0
        rcases List.mem_cons.mp hmem with hh | ht
        · rw [Prod.mk.injEq] at hh
          obtain ⟨rfl, rfl⟩ := hh
          exact absurd hst0 hst
        · obtain ⟨h1, h2⟩ := hfail k0 s0 ssh0 rc0 err0 ht hst0 hsu0 hg0 hrc0
          exact ⟨List.mem_cons_of_mem _ h1, List.mem_cons_of_mem _ h2⟩
      · rintro ssh0 hmem
        obtain ⟨p, hp, h1, h2⟩ := hinv ssh0 hmem
        exact ⟨p, List.mem_cons_of_mem _ hp, h1, h2⟩

/- ### Scan-phase facts -/

theorem extract_student_ok {f : List Char} {st : Student}
    (h : extract_student_info f = .ret (some st)) :
    (∃ w, st.first = some w) ∧ (∃ d, st.last = some d ∧ LastShape d) ∧
      st.status = "folder".toList := by
  unfold extract_student_info at h
  split at h
  · exact absurd h (by simp)
  · rename_i caps hps
    split at h
    · exact absurd h (by simp)
    · injection h with h2
      injection h2 with h3
      subst h3
      obtain ⟨⟨w, hw⟩, d, hd, hshape⟩ := folderPat_caps hps
      exact ⟨⟨w, hw⟩, ⟨d, hd, hshape⟩, rfl⟩

theorem mem_dictSet {d : List (List Char × Student)} {k : List Char} {v : Student}
    {p : List Char × Student} (h : p ∈ dictSet d k v) : p ∈ d ∨ p = (k, v) := by
  unfold dictSet at h
  split at h
  · obtain ⟨q, hq, hfq⟩ := List.mem_map.mp h
    by_cases hk : (q.1 == k) = true
    · right; rw [if_pos hk] at hfq; exact hfq.symm
    · left; rw [if_neg hk] at hfq; rw [← hfq]; exact hq
  · rcases List.mem_append.mp h with h1 | h1
    · exact Or.inl h1
    · exact Or.inr (List.mem_singleton.mp h1)

theorem mem_dictDel {d : List (List Char × Student)} {k : List Char}
    {p : List Char × Student} (h : p ∈ dictDel d k) : p ∈ d :=
  List.mem_of_mem_filter h

theorem addStudent_ret {acc : List (List Char × Student)} {st : Student} {fi la : List Char}
    (hf : st.first = some fi) (hl : st.last = some la) :
    ∃ d2, addStudent acc st = .ret d2 ∧ ∀ p ∈ d2, p ∈ acc ∨ p.2 = st := by
  unfold addStudent
  rw [hf, hl]
  refine ⟨_, rfl, ?_⟩
  intro p hp
  rcases mem_dictSet hp with h1 | h1
  · left
    revert h1
    split
    · split
      · exact fun h1 => mem_dictDel h1
      · exact id
    · exact id
  · right; rw [h1]

theorem scanFoldersGo_ret :
    ∀ (folders : List (List Char)) (acc : List (List Char × Student)),
      (∀ f ∈ folders, extract_student_info f ≠ .raised) →
      (∀ p ∈ acc, p.2.status = "folder".toList) →
      ∃ d, scanFoldersGo acc folders = .ret d ∧ ∀ p ∈ d, p.2.status = "folder".toList := by
  intro folders
  induction folders with
  | nil => intro acc _ hacc; exact ⟨acc, rfl, hacc⟩
  | cons f rest ih =>
    intro acc hok hacc
    have hoknr := hok f (List.mem_cons_self _ _)
    cases hex : extract_student_info f with
    | raised => exact absurd hex hoknr
    | ret ost =>
      cases ost with
      | none =>
        obtain ⟨d, hd, hall⟩ := ih acc (fun g hg => hok g (List.mem_cons_of_mem _ hg)) hacc
        refine ⟨d, ?_, hall⟩
        rw [scanFoldersGo, hex]
        exact hd
      | some st =>
        obtain ⟨⟨fi, hfi⟩, ⟨la, hla, _⟩, hstat⟩ := extract_student_ok hex
        obtain ⟨d2, hd2, hmem⟩ := addStudent_ret hfi hla
        have hall2 : ∀ p ∈ d2, p.2.status = "folder".toList := by
          intro p hp
          rcases hmem p hp with h | h
          · exact hacc p h
          · rw [h, hstat]
        obtain ⟨d, hd, hall⟩ := ih d2 (fun g hg => hok g (List.mem_cons_of_mem _ hg)) hall2
        refine ⟨d, ?_, hall⟩
        simp only [scanFoldersGo, hex, hd2]
        exact hd

theorem scanFolders_ret {folders : List (List Char)}
    (hok : ∀ f ∈ folders, extract_student_info f ≠ .raised) :
    ∃ d, scanFolders folders = .ret d ∧ ∀ p ∈ d, p.2.status = "folder".toList :=
  scanFoldersGo_ret folders [] hok (fun _ hp => absurd hp (List.not_mem_nil _))

/- ### HTML-phase facts -/

theorem get_student_url_ret :
    ∀ (lines : List (List Char)) (s : Student),
      (∀ line ∈ lines, lineOkB line = true) →
      (s.status = "github".toList → s.ssh_url ≠ none) →
      ∃ s2, get_student_url s lines = .ret s2 ∧
        (s2.status = "github".toList → s2.ssh_url ≠ none) := by
  intro lines
  induction lines with
  | nil => intro s _ hinv; exact ⟨s, rfl, hinv⟩
  | cons line rest ih =>
    intro s hok hinv
    have h1 := hok line (List.mem_cons_self _ _)
    cases hps : pySearch urlPat line with
    | none =>
      have hne : ¬("no_url".toList = "github".toList) := by decide
      obtain ⟨s2, hs2, hi2⟩ := ih { s with ssh_url := some [], status := "no_url".toList }
        (fun l hl => hok l (List.mem_cons_of_mem _ hl)) (fun habs => absurd habs hne)
      refine ⟨s2, ?_, hi2⟩
      rw [get_student_url, hps]
      exact hs2
    | some caps =>
      unfold lineOkB at h1
      rw [hps] at h1
      obtain ⟨url, hf⟩ := Option.isSome_iff_exists.mp h1
      have hshape := findUrl_shape hps hf
      obtain ⟨hg3, hg4⟩ := urlSplit_get?34 hshape
      obtain ⟨own, ho⟩ := Option.ne_none_iff_exists'.mp hg3
      obtain ⟨raw, hr⟩ := Option.ne_none_iff_exists'.mp hg4
      refine ⟨{ s with userid := some own, repo := some (stripGit raw), ssh_url := some (serverName ++ ':' :: (own ++ '/' :: (stripGit raw ++ ".git".toList))), status := "github".toList }, ?_, ?_⟩
      · simp only [get_student_url, hps, hf, ho, hr]
      · intro _
        simp

theorem processFiles_ret :
    ∀ (files : List (List (List Char))) (s : Student),
      (∀ f ∈ files, ∀ line ∈ f, lineOkB line = true) →
      (s.status = "github".toList → s.ssh_url ≠ none) →
      ∃ s2, processFiles s files = .ret s2 ∧
        (s2.status = "github".toList → s2.ssh_url ≠ none) := by
  intro files
  induction files with
  | nil => intro s _ hinv; exact ⟨s, rfl, hinv⟩
  | cons f fs ih =>
    intro s hok hinv
    obtain ⟨s2, hs2, hi2⟩ :=
      get_student_url_ret f s (fun l hl => hok f (List.mem_cons_self _ _) l hl) hinv
    obtain ⟨s3, hs3, hi3⟩ := ih s2 (fun g hg => hok g (List.mem_cons_of_mem _ hg)) hi2
    refine ⟨s3, ?_, hi3⟩
    rw [processFiles, hs2]
    exact hs3

theorem get_github_info_ret (filesOf : List Char → List (List (List Char))) :
    ∀ students : List (List Char × Student),
      (∀ fname f line, f ∈ filesOf fname → line ∈ f → lineOkB line = true) →
      (∀ p ∈ students, p.2.status = "github".toList → p.2.ssh_url ≠ none) →
      ∃ d, get_github_info filesOf students = .ret d ∧
        ∀ p ∈ d, p.2.status = "github".toList → p.2.ssh_url ≠ none := by
  intro students
  induction students with
  | nil => intro _ _; exact ⟨[], rfl, fun p hp => absurd hp (List.not_mem_nil _)⟩
  | cons hd rest ih =>
    obtain ⟨k, s⟩ := hd
    intro hall hwf
    obtain ⟨d, hdret, hdall⟩ := ih hall (fun p hp => hwf p (List.mem_cons_of_mem _ hp))
    by_cases hst : s.status = "folder".toList
    · obtain ⟨s2, hs2, hi2⟩ := processFiles_ret (filesOf s.folder) s
        (fun f hf line hl => hall s.folder f line hf hl)
        (hwf (k, s) (List.mem_cons_self _ _))
      refine ⟨(k, s2) :: d, ?_, ?_⟩
      · rw [get_github_info, if_pos hst, hs2, hdret]
      · intro p hp
        rcases List.mem_cons.mp hp with rfl | hp2
        · exact hi2
        · exact hdall p hp2
    · refine ⟨(k, s) :: d, ?_, ?_⟩
      · rw [get_github_info, if_neg hst, hdret]
      · intro p hp
        rcases List.mem_cons.mp hp with rfl | hp2
        · exact hwf (k, s) (List.mem_cons_self _ _)
        · exact hdall p hp2

/- ### Claim theorems -/

/-- C1 (exhibit of the defect): both folders parse, they normalize to the same
key, and the first folder carries the strictly later timestamp (Jan 25 vs
Jan 24); yet after scanning them in that order the collection holds the
second, earlier-timestamped record, because `students[student_key] = student`
runs unconditionally after the datetime check.  The claim (and the code's own
comments, "check datetime to keep latest") say the later timestamp must
survive regardless of processing order. -/
theorem C1_last_processed_wins :
    extract_student_info "101768-164537 - Jan Doe - Jan 25, 2025 204 PM".toList =
      .ret (some
        { folder := "101768-164537 - Jan Doe - Jan 25, 2025 204 PM".toList,
          datetime := ⟨2025, 1, 25, 14, 4⟩, first := some "Jan".toList,
          last := some "Doe".toList, userid := none, repo := none, ssh_url := none,
          status := "folder".toList }) ∧
    dtGt (⟨2025, 1, 25, 14, 4⟩ : DT) (⟨2025, 1, 24, 14, 4⟩ : DT) = true ∧
    scanFolders ["101768-164537 - Jan Doe - Jan 25, 2025 204 PM".toList,
        "101768-164538 - Jan Doe - Jan 24, 2025 204 PM".toList] =
      .ret [("jandoe".toList,
        { folder := "101768-164538 - Jan Doe - Jan 24, 2025 204 PM".toList,
          datetime := ⟨2025, 1, 24, 14, 4⟩, first := some "Jan".toList,
          last := some "Doe".toList, userid := none, repo := none, ssh_url := none,
          status := "folder".toList })] :=
  ⟨by decide, by decide, by decide⟩

/-- C3: the numeric time field is split by division and modulo by 100, so a
3-digit time and its 0-padded 4-digit form parse identically (for any values
of the other groups), and the sample folder yields first `Jan`, last `Doe`,
timestamp 2025-01-25 14:04. -/
theorem C3_time_field :
    (∀ (g0 g1 g2 g3 g4 g6 : Option (List Char)) (t : List Char), t ≠ [] →
      get_datetime [g0, g1, g2, g3, g4, some ('0' :: t), g6] =
        get_datetime [g0, g1, g2, g3, g4, some t, g6]) ∧
    extract_student_info "101768-164537 - Jan Doe - Jan 25, 2025 204 PM".toList =
      .ret (some
        { folder := "101768-164537 - Jan Doe - Jan 25, 2025 204 PM".toList,
          datetime := ⟨2025, 1, 25, 14, 4⟩, first := some "Jan".toList,
          last := some "Doe".toList, userid := none, repo := none, ssh_url := none,
          status := "folder".toList }) := by
  constructor
  · intro g0 g1 g2 g3 g4 g6 t ht
    simp only [get_datetime, List.get?]
    rw [pyInt?_cons_zero ht]
  · decide

/-- C3 witness: the padding invariance applied to the sample groups, `204`
versus `0204`. -/
theorem C3_witness :
    "204".toList ≠ [] ∧
    get_datetime [some "Jan".toList, some "Doe".toList, some "Jan".toList,
        some "25".toList, some "2025".toList, some ('0' :: "204".toList),
        some "PM".toList] =
      get_datetime [some "Jan".toList, some "Doe".toList, some "Jan".toList,
        some "25".toList, some "2025".toList, some "204".toList, some "PM".toList] :=
  ⟨by decide, C3_time_field.1 _ _ _ _ _ _ _ (by decide)⟩

/-- C8: every successful parse captures a last name of one of exactly the
three shapes of the alternation (lone period, single word, hyphenated pair),
stored verbatim; the three shapes are each accepted on concrete folders
(including the literal `.` last name), and a three-part hyphenated name is
rejected. -/
theorem C8_last_name_shapes :
    (∀ (name : List Char) (st : Student), extract_student_info name = .ret (some st) →
      ∃ d, st.last = some d ∧ LastShape d) ∧
    extract_student_info "101768-164537 - Jan . - Jan 25, 2025 204 PM".toList =
      .ret (some
        { folder := "101768-164537 - Jan . - Jan 25, 2025 204 PM".toList,
          datetime := ⟨2025, 1, 25, 14, 4⟩, first := some "Jan".toList,
          last := some ['.'], userid := none, repo := none, ssh_url := none,
          status := "folder".toList }) ∧
    extract_student_info "101768-164537 - Jan Doe - Jan 25, 2025 204 PM".toList =
      .ret (some
        { folder := "101768-164537 - Jan Doe - Jan 25, 2025 204 PM".toList,
          datetime := ⟨2025, 1, 25, 14, 4⟩, first := some "Jan".toList,
          last := some "Doe".toList, userid := none, repo := none, ssh_url := none,
          status := "folder".toList }) ∧
    extract_student_info "101768-164537 - Ann Smith-Jones - Jan 25, 2025 1204 PM".toList =
      .ret (some
        { folder := "101768-164537 - Ann Smith-Jones - Jan 25, 2025 1204 PM".toList,
          datetime := ⟨2025, 1, 25, 12, 4⟩, first := some "Ann".toList,
          last := some "Smith-Jones".toList, userid := none, repo := none, ssh_url := none,
          status := "folder".toList }) ∧
    extract_student_info
        "101768-164537 - Ann Smith-Jones-Brown - Jan 25, 2025 1204 PM".toList =
      .ret none := by
  refine ⟨?_, by decide, by decide, by decide, by decide⟩
  intro name st h
  exact (extract_student_ok h).2.1

/-- C8 witness: the shape property applied to the folder whose last-name field
is a literal period. -/
theorem C8_witness :
    ∃ d, (some ['.'] : Option (List Char)) = some d ∧ LastShape d := by
  have h := C8_last_name_shapes.1
    "101768-164537 - Jan . - Jan 25, 2025 204 PM".toList
    { folder := "101768-164537 - Jan . - Jan 25, 2025 204 PM".toList,
      datetime := ⟨2025, 1, 25, 14, 4⟩, first := some "Jan".toList,
      last := some ['.'], userid := none, repo := none, ssh_url := none,
      status := "folder".toList } (by decide)
  exact h

theorem findUrl_some_prefixed :
    ∀ {gs : List (Option (List Char))} {url : List Char}, findUrl gs = some url →
      startsWith "https://github.com".toList url = true := by
  intro gs
  induction gs with
  | nil => intro url h; exact absurd h (by simp [findUrl])
  | cons g rest ih =>
    intro url h
    rw [findUrl] at h
    split at h
    · injection h with h2
      subst h2
      assumption
    · exact ih h

/-- C4: the `.git`-trimming loop removes every trailing `.git`
(`proj.git.git` resolves to `proj`, and no trimmed name ever ends in `.git`),
and on a matching line the record stores owner = 4th `/`-component,
repo = trimmed 5th component, and the clone address
`<alias>:<owner>/<repo>.git` exactly. -/
theorem C4_repo_trim :
    stripGit "proj.git.git".toList = "proj".toList ∧
    (∀ r : List Char, ".git".toList.isSuffixOf (stripGit r) = false) ∧
    (∀ (s : Student) (line : List Char) (caps : Caps) (url own raw : List Char)
       (rest : List (List Char)),
      pySearch urlPat line = some caps →
      findUrl [getCap caps 1, getCap caps 2] = some url →
      (splitOnChar '/' url).get? 3 = some own →
      (splitOnChar '/' url).get? 4 = some raw →
      get_student_url s (line :: rest) =
        .ret { s with userid := some own, repo := some (stripGit raw),
                      ssh_url := some (serverName ++ ':' ::
                        (own ++ '/' :: (stripGit raw ++ ".git".toList))),
                      status := "github".toList }) := by
  refine ⟨by decide, stripGit_no_suffix, ?_⟩
  intro s line caps url own raw rest hps hf ho hr
  simp only [get_student_url, hps, hf, ho, hr]

/-- C4 witness: a `href` line whose repository part is `proj.git.git` produces
owner `alice`, repository `proj`, and address `git@github-fleming:alice/proj.git`. -/
theorem C4_witness :
    get_student_url
      { folder := "f".toList, datetime := ⟨2025, 1, 25, 14, 4⟩,
        first := some "Jan".toList, last := some "Doe".toList, userid := none,
        repo := none, ssh_url := none, status := "folder".toList }
      ["href=\"https://github.com/alice/proj.git.git\"".toList] =
      .ret { folder := "f".toList, datetime := ⟨2025, 1, 25, 14, 4⟩,
             first := some "Jan".toList, last := some "Doe".toList,
             userid := some "alice".toList,
             repo := some (stripGit "proj.git.git".toList),
             ssh_url := some (serverName ++ ':' :: ("alice".toList ++ '/' ::
               (stripGit "proj.git.git".toList ++ ".git".toList))),
             status := "github".toList } :=
  C4_repo_trim.2.2 _ _ [(1, "https://github.com/alice/proj.git.git".toList)]
    "https://github.com/alice/proj.git.git".toList "alice".toList "proj.git.git".toList []
    (by decide) (by decide) (by decide) (by decide)

/-- C9 counterexample: the paragraph-wrapped line `<p>https://githubXcom/a/b</p>`
matches the link pattern (the dot of `github.com` is unescaped in that
alternative), but no capture group starts with `https://github.com`, so the
group loop leaves `url` unbound and `get_student_url` dies with a `NameError`. -/
theorem C9_counterexample :
    pySearch urlPat "<p>https://githubXcom/a/b</p>".toList =
      some [(2, "https://githubXcom/a/b".toList)] ∧
    findUrl [getCap [(2, "https://githubXcom/a/b".toList)] 1,
             getCap [(2, "https://githubXcom/a/b".toList)] 2] = none ∧
    get_student_url
      { folder := "f".toList, datetime := ⟨2025, 1, 25, 14, 4⟩,
        first := some "Jan".toList, last := some "Doe".toList, userid := none,
        repo := none, ssh_url := none, status := "folder".toList }
      ["<p>https://githubXcom/a/b</p>".toList] = .raised :=
  ⟨by decide, by decide, by decide⟩

/-- C9 (amended): whenever a line matches the link pattern *and* the group
loop finds a `https://github.com`-prefixed group, the chosen URL splits on `/`
into at least five components, so `components[3]` and `components[4]` are in
range; a match via the paragraph alternative may instead leave `url` unbound. -/
theorem C9_url_components :
    ∀ (line : List Char) (caps : Caps) (url : List Char),
      pySearch urlPat line = some caps →
      findUrl [getCap caps 1, getCap caps 2] = some url →
      startsWith "https://github.com".toList url = true ∧
      5 ≤ (splitOnChar '/' url).length ∧
      (splitOnChar '/' url).get? 3 ≠ none ∧ (splitOnChar '/' url).get? 4 ≠ none := by
  intro line caps url hps hf
  obtain ⟨a, b, ha, hb, hurl⟩ := findUrl_shape hps hf
  obtain ⟨h3, h4⟩ := urlSplit_get?34 ⟨a, b, ha, hb, hurl⟩
  subst hurl
  exact ⟨findUrl_some_prefixed hf, urlSplit_len, h3, h4⟩

/-- C9 witness: the component bound applied to a concrete `href` line. -/
theorem C9_witness :
    startsWith "https://github.com".toList "https://github.com/alice/proj".toList = true ∧
    5 ≤ (splitOnChar '/' "https://github.com/alice/proj".toList).length ∧
    (splitOnChar '/' "https://github.com/alice/proj".toList).get? 3 ≠ none ∧
    (splitOnChar '/' "https://github.com/alice/proj".toList).get? 4 ≠ none :=
  C9_url_components "href=\"https://github.com/alice/proj\"".toList
    [(1, "https://github.com/alice/proj".toList)] "https://github.com/alice/proj".toList
    (by decide) (by decide)

/-- C2 counterexample: a record in status `'folder'` whose first HTML file
contains a matching link line still ends in status `'no_url'`, because
`get_github_info` goes on to scan the second HTML file (which has no matching
line) and `get_student_url` overwrites the result.  This refutes both "once a
match is found later files are ignored" and "status is `no_url` only if no
matching line is found". -/
theorem C2_counterexample :
    pySearch urlPat "href=\"https://github.com/alice/proj\"".toList ≠ none ∧
    get_github_info
      (fun _ => [["href=\"https://github.com/alice/proj\"".toList], ["hello".toList]])
      [("jandoe".toList,
        { folder := "f".toList, datetime := ⟨2025, 1, 25, 14, 4⟩,
          first := some "Jan".toList, last := some "Doe".toList, userid := none,
          repo := none, ssh_url := none, status := "folder".toList })] =
      .ret [("jandoe".toList,
        { folder := "f".toList, datetime := ⟨2025, 1, 25, 14, 4⟩,
          first := some "Jan".toList, last := some "Doe".toList,
          userid := some "alice".toList, repo := some "proj".toList,
          ssh_url := some [], status := "no_url".toList })] ∧
    "no_url".toList ≠ "github".toList :=
  ⟨by decide, by decide, by decide⟩

/-- C2 (amended): within a single HTML file the first matching line wins —
the record becomes `'github'` with owner, repo and clone address from that
line, and the remaining lines of the file are ignored; a nonempty file with no
matching line sets the record to `'no_url'`; but the file loop keeps calling
`get_student_url` for every later file, which can overwrite the result. -/
theorem C2_first_match_per_file :
    (∀ (s : Student) (line : List Char) (caps : Caps) (rest rest' : List (List Char)),
      pySearch urlPat line = some caps →
      get_student_url s (line :: rest) = get_student_url s (line :: rest')) ∧
    (∀ (s : Student) (line : List Char) (caps : Caps) (url own raw : List Char)
       (rest : List (List Char)),
      pySearch urlPat line = some caps →
      findUrl [getCap caps 1, getCap caps 2] = some url →
      (splitOnChar '/' url).get? 3 = some own →
      (splitOnChar '/' url).get? 4 = some raw →
      get_student_url s (line :: rest) =
        .ret { s with userid := some own, repo := some (stripGit raw),
                      ssh_url := some (serverName ++ ':' ::
                        (own ++ '/' :: (stripGit raw ++ ".git".toList))),
                      status := "github".toList }) ∧
    (∀ (lines : List (List Char)) (s : Student), lines ≠ [] →
      (∀ line ∈ lines, pySearch urlPat line = none) →
      get_student_url s lines =
        .ret { s with ssh_url := some [], status := "no_url".toList }) ∧
    (∀ (s s2 : Student) (f : List (List Char)) (fs : List (List (List Char))),
      get_student_url s f = .ret s2 →
      processFiles s (f :: fs) = processFiles s2 fs) := by
  refine ⟨?_, ?_, ?_, ?_⟩
  · intro s line caps rest rest' hps
    simp only [get_student_url, hps]
  · intro s line caps url own raw rest hps hf ho hr
    simp only [get_student_url, hps, hf, ho, hr]
  · intro lines
    induction lines with
    | nil => intro s h; exact absurd rfl h
    | cons l ls ih =>
      intro s _ hall
      have hl := hall l (List.mem_cons_self _ _)
      cases ls with
      | nil => simp only [get_student_url, hl]
      | cons l2 ls2 =>
        have hstep : get_student_url s (l :: l2 :: ls2) =
            get_student_url { s with ssh_url := some [], status := "no_url".toList }
              (l2 :: ls2) := by
          simp only [get_student_url, hl]
        rw [hstep, ih _ (by simp) (fun x hx => hall x (List.mem_cons_of_mem _ hx))]
  · intro s s2 f fs h
    simp only [processFiles, h]

/-- C2 witness: the matched branch and the no-match branch applied to concrete
one-file inputs. -/
theorem C2_witness :
    get_student_url
      { folder := "f".toList, datetime := ⟨2025, 1, 25, 14, 4⟩,
        first := some "Jan".toList, last := some "Doe".toList, userid := none,
        repo := none, ssh_url := none, status := "folder".toList }
      ["href=\"https://github.com/alice/proj\"".toList] =
      .ret { folder := "f".toList, datetime := ⟨2025, 1, 25, 14, 4⟩,
             first := some "Jan".toList, last := some "Doe".toList,
             userid := some "alice".toList,
             repo := some (stripGit "proj".toList),
             ssh_url := some (serverName ++ ':' :: ("alice".toList ++ '/' ::
               (stripGit "proj".toList ++ ".git".toList))),
             status := "github".toList } ∧
    get_student_url
      { folder := "f".toList, datetime := ⟨2025, 1, 25, 14, 4⟩,
        first := some "Jan".toList, last := some "Doe".toList, userid := none,
        repo := none, ssh_url := none, status := "folder".toList }
      ["hello".toList] =
      .ret { folder := "f".toList, datetime := ⟨2025, 1, 25, 14, 4⟩,
             first := some "Jan".toList, last := some "Doe".toList, userid := none,
             repo := none, ssh_url := some [], status := "no_url".toList } :=
  ⟨C2_first_match_per_file.2.1 _ _ [(1, "https://github.com/alice/proj".toList)]
      "https://github.com/alice/proj".toList "alice".toList "proj".toList []
      (by decide) (by decide) (by decide) (by decide),
   C2_first_match_per_file.2.2.1 ["hello".toList] _ (by decide)
      (by intro line hl; rw [List.mem_singleton] at hl; subst hl; decide)⟩

theorem dropWhile_eq_self_of_all {p : Char → Bool} {l : List Char}
    (h : ∀ a ∈ l, p a = false) : l.dropWhile p = l := by
  cases l with
  | nil => rfl
  | cons x xs => simp [List.dropWhile_cons, h x (List.mem_cons_self _ _)]

/-- Python `"(...)".strip('()')` on a parenthesised digit string returns the
digits between the parentheses. -/
theorem pyStrip_paren_digits {ds : List Char} (h : ∀ a ∈ ds, digitC a = true) :
    pyStrip ['(', ')'] ('(' :: (ds ++ [')'])) = ds := by
  have hnp : ∀ a ∈ ds, ¬a = '(' ∧ ¬a = ')' := by
    intro a ha
    have hd := h a ha
    constructor
    · intro hx; rw [hx] at hd; exact absurd hd (by decide)
    · intro hx; rw [hx] at hd; exact absurd hd (by decide)
  cases ds with
  | nil => decide
  | cons c ds2 =>
    have hc := hnp c (List.mem_cons_self _ _)
    have hrevall : ∀ a ∈ ds2.reverse ++ [c],
        (decide (a ∈ (['(', ')'] : List Char))) = false := by
      intro a ha
      have ha2 : a ∈ c :: ds2 := by
        rcases List.mem_append.mp ha with h2 | h2
        · exact List.mem_cons_of_mem _ (List.mem_reverse.mp h2)
        · rw [List.mem_singleton] at h2
          rw [h2]
          exact List.mem_cons_self _ _
      have := hnp a ha2
      simp [this.1, this.2]
    unfold pyStrip
    have e1 : List.dropWhile (fun x => decide (x ∈ (['(', ')'] : List Char)))
        ('(' :: (c :: ds2 ++ [')'])) = (c :: ds2) ++ [')'] := by
      rw [List.dropWhile_cons]
      simp only [List.cons_append]
      rw [List.dropWhile_cons]
      simp [hc.1, hc.2]
    rw [e1, List.reverse_append]
    simp only [List.reverse_cons, List.reverse_nil, List.nil_append, List.singleton_append]
    rw [List.dropWhile_cons, if_pos (by decide)]
    rw [dropWhile_eq_self_of_all hrevall]
    simp

/-- C10 counterexample: on an input with a trailing newline the pattern still
matches (Python `$` also matches just before a final newline), so the four
digits of the result do *not* end the input, contradicting the claim as
stated. -/
theorem C10_counterexample :
    phone_number_brackets "(705)555-1212\n".toList = .ret "+1.705.555.1212".toList ∧
    "1212".toList.isSuffixOf "(705)555-1212\n".toList = false :=
  ⟨by decide, by decide⟩

/-- C10 (amended): `phone_number_brackets` never raises and returns either the
empty string or `'+1.' + area + '.' + ddd + '.' + dddd` with `area` the
(possibly empty) digit sequence between the parentheses, `ddd` exactly three
digits, and `dddd` exactly four digits that end the input up to an optional
final newline; `'()555-1212'` yields `'+1..555.1212'`. -/
theorem C10_phone_shape :
    (∀ s : List Char, ∃ res, phone_number_brackets s = .ret res ∧
      (res = [] ∨ ∃ area d3 d4 rest,
        res = "+1.".toList ++ area ++ '.' :: (d3 ++ '.' :: d4) ∧
        (∀ a ∈ area, digitC a = true) ∧ d3.length = 3 ∧ (∀ a ∈ d3, digitC a = true) ∧
        d4.length = 4 ∧ (∀ a ∈ d4, digitC a = true) ∧
        (∃ pre, s = pre ++ (d4 ++ rest)) ∧ (rest = [] ∨ rest = ['\n']))) ∧
    phone_number_brackets "()555-1212".toList = .ret "+1..555.1212".toList := by
  constructor
  · intro s
    cases hps : pySearch phonePat s with
    | none =>
      refine ⟨[], ?_, Or.inl rfl⟩
      rw [phone_number_brackets, hps]
    | some caps =>
      obtain ⟨ds, d3, d4, rest, pre, h1, hds, h2, hl3, hd3, h3, hl4, hd4, hseq, hrest⟩ :=
        phonePat_caps hps
      refine ⟨"+1.".toList ++ pyStrip ['(', ')'] ('(' :: (ds ++ [')'])) ++
          '.' :: (d3 ++ '.' :: d4), ?_,
        Or.inr ⟨ds, d3, d4, rest, ?_, hds, hl3, hd3, hl4, hd4, ⟨pre, hseq⟩, hrest⟩⟩
      · simp only [phone_number_brackets, hps, h1, h2, h3]
      · rw [pyStrip_paren_digits hds]
  · decide

/-- C5: on a well-formed collection the clone phase returns normally with one
output record per input record in order; every `'github'` record whose
external command exits nonzero comes out with status `'problem'` and its
stderr text printed; and (under the crash-freedom conditions of the pipeline)
the whole run exits 0 printing a `key: status` summary line for every record
of the final collection. -/
theorem C5_clone_failures :
    (∀ (runGit : List Char → List Char → GitResult)
       (students : List (List Char × Student)),
      (∀ p ∈ students, p.2.status = "github".toList → p.2.ssh_url ≠ none) →
      ∃ out log inv, clone_repos runGit students = (.ret out, log, inv) ∧
        out.map Prod.fst = students.map Prod.fst ∧
        (∀ k s ssh rc err, (k, s) ∈ students → s.status = "github".toList →
          s.ssh_url = some ssh → runGit ssh s.folder = .completed rc err → rc ≠ 0 →
          (k, { s with status := "problem".toList }) ∈ out ∧
            Msg.stderrText err ∈ log)) ∧
    (∀ (folders : List (List Char)) (filesOf : List Char → List (List (List Char)))
       (runGit : List Char → List Char → GitResult),
      (∀ f ∈ folders, extract_student_info f ≠ .raised) →
      (∀ fname f line, f ∈ filesOf fname → line ∈ f → lineOkB line = true) →
      ∃ (students3 : List (List Char × Student)) (log : List Msg)
        (inv : List (List Char)), mainRun true folders filesOf runGit =
          ⟨0, students3.map (fun p => (p.1, p.2.status)), log, inv⟩) := by
  constructor
  · intro runGit students hwf
    obtain ⟨out, log, inv, h1, h2, _, h4, _⟩ := clone_repos_spec runGit students hwf
    exact ⟨out, log, inv, h1, h2, h4⟩
  · intro folders filesOf runGit hfold hline
    obtain ⟨d, hd, hall⟩ := scanFolders_ret hfold
    have hwf : ∀ p ∈ d, p.2.status = "github".toList → p.2.ssh_url ≠ none := by
      intro p hp hg
      rw [hall p hp] at hg
      exact absurd hg (by decide)
    obtain ⟨d2, hd2, hwf2⟩ := get_github_info_ret filesOf d hline hwf
    obtain ⟨out, log, inv, hc, _, _, _, _⟩ := clone_repos_spec runGit d2 hwf2
    refine ⟨out, log, inv, ?_⟩
    simp only [mainRun, if_true, hd, hd2, hc]

/-- C5 witness: a two-record collection in which the github record's clone
exits 1 (it comes out as `'problem'` with the stderr text logged, and both
records survive), plus a concrete crash-free run printing its summary. -/
theorem C5_witness :
    (∃ out log inv,
      clone_repos (fun _ _ => GitResult.completed 1 "boom".toList)
        [("jandoe".toList,
          { folder := "f".toList, datetime := ⟨2025, 1, 25, 14, 4⟩,
            first := some "Jan".toList, last := some "Doe".toList,
            userid := some "alice".toList, repo := some "proj".toList,
            ssh_url := some "git@github-fleming:alice/proj.git".toList,
            status := "github".toList }),
         ("annsmith".toList,
          { folder := "g".toList, datetime := ⟨2025, 1, 25, 14, 4⟩,
            first := some "Ann".toList, last := some "Smith".toList,
            userid := none, repo := none, ssh_url := some [],
            status := "no_url".toList })] = (.ret out, log, inv) ∧
      out.map Prod.fst = ["jandoe".toList, "annsmith".toList] ∧
      ("jandoe".toList,
        ({ folder := "f".toList, datetime := ⟨2025, 1, 25, 14, 4⟩,
           first := some "Jan".toList, last := some "Doe".toList,
           userid := some "alice".toList, repo := some "proj".toList,
           ssh_url := some "git@github-fleming:alice/proj.git".toList,
           status := "problem".toList } : Student)) ∈ out ∧
      Msg.stderrText "boom".toList ∈ log) ∧
    (∃ (students3 : List (List Char × Student)) (log2 : List Msg)
      (inv2 : List (List Char)),
      mainRun true ["101768-164537 - Jan Doe - Jan 25, 2025 204 PM".toList]
        (fun _ => [["href=\"https://github.com/alice/proj\"".toList]])
        (fun _ _ => GitResult.completed 0 []) =
        ⟨0, students3.map (fun p => (p.1, p.2.status)), log2, inv2⟩) := by
  constructor
  · obtain ⟨out, log, inv, h1, h2, h3⟩ :=
      C5_clone_failures.1 (fun _ _ => GitResult.completed 1 "boom".toList)
        [("jandoe".toList,
          { folder := "f".toList, datetime := ⟨2025, 1, 25, 14, 4⟩,
            first := some "Jan".toList, last := some "Doe".toList,
            userid := some "alice".toList, repo := some "proj".toList,
            ssh_url := some "git@github-fleming:alice/proj.git".toList,
            status := "github".toList }),
         ("annsmith".toList,
          { folder := "g".toList, datetime := ⟨2025, 1, 25, 14, 4⟩,
            first := some "Ann".toList, last := some "Smith".toList,
            userid := none, repo := none, ssh_url := some [],
            status := "no_url".toList })] (by decide)
    have h4 := h3 "jandoe".toList
      { folder := "f".toList, datetime := ⟨2025, 1, 25, 14, 4⟩,
        first := some "Jan".toList, last := some "Doe".toList,
        userid := some "alice".toList, repo := some "proj".toList,
        ssh_url := some "git@github-fleming:alice/proj.git".toList,
        status := "github".toList }
      "git@github-fleming:alice/proj.git".toList 1 "boom".toList
      (List.mem_cons_self _ _) rfl rfl rfl (by decide)
    exact ⟨out, log, inv, h1, h2, h4.1, h4.2⟩
  · exact C5_clone_failures.2 _ _ _
      (by intro f hf; rw [List.mem_singleton] at hf; subst hf; decide)
      (by
        intro fname f line hf hl
        rw [List.mem_singleton] at hf
        subst hf
        rw [List.mem_singleton] at hl
        subst hl
        decide)

/-- C6 counterexample: a run over one valid submission folder whose HTML file
consists of the line `<p>https://githubXcom/a/b</p>` dies with a `NameError`
(the line matches the link pattern but no group starts with
`https://github.com`), so the process exit code is 1, not 0. -/
theorem C6_counterexample :
    pySearch urlPat "<p>https://githubXcom/a/b</p>".toList ≠ none ∧
    mainRun true ["101768-164537 - Jan Doe - Jan 25, 2025 204 PM".toList]
      (fun _ => [["<p>https://githubXcom/a/b</p>".toList]])
      (fun _ _ => .completed 0 []) = ⟨1, [], [], []⟩ :=
  ⟨by decide, by decide⟩

/-- C6 (amended): the path-resolution failure prints its diagnostic and exits
0 having processed no records; and whenever no folder name makes the
timestamp parser raise and every matching HTML line carries a
`https://github.com`-prefixed group, the run exits 0.  (An uncaught
exception — e.g. the unescaped-dot line of the counterexample — instead kills
the interpreter with exit code 1.) -/
theorem C6_exit_codes :
    (∀ folders filesOf runGit,
      mainRun false folders filesOf runGit = ⟨0, [], [Msg.cannotResolve], []⟩) ∧
    (∀ folders filesOf runGit,
      (∀ f ∈ folders, extract_student_info f ≠ .raised) →
      (∀ fname f line, f ∈ filesOf fname → line ∈ f → lineOkB line = true) →
      (mainRun true folders filesOf runGit).exitCode = 0) := by
  constructor
  · intro folders filesOf runGit
    rfl
  · intro folders filesOf runGit hfold hline
    obtain ⟨d, hd, hall⟩ := scanFolders_ret hfold
    have hwf : ∀ p ∈ d, p.2.status = "github".toList → p.2.ssh_url ≠ none := by
      intro p hp hg
      rw [hall p hp] at hg
      exact absurd hg (by decide)
    obtain ⟨d2, hd2, hwf2⟩ := get_github_info_ret filesOf d hline hwf
    obtain ⟨out, log, inv, hc, _, _, _, _⟩ := clone_repos_spec runGit d2 hwf2
    simp only [mainRun, if_true, hd, hd2, hc]

/-- C6 witness: the resolution-failure branch at a concrete world, and a
concrete crash-free run exiting 0. -/
theorem C6_witness :
    mainRun false [] (fun _ => []) (fun _ _ => .completed 0 []) =
      ⟨0, [], [Msg.cannotResolve], []⟩ ∧
    (mainRun true ["101768-164537 - Jan Doe - Jan 25, 2025 204 PM".toList]
      (fun _ => [["href=\"https://github.com/alice/proj\"".toList]])
      (fun _ _ => .completed 0 [])).exitCode = 0 :=
  ⟨C6_exit_codes.1 [] (fun _ => []) (fun _ _ => .completed 0 []),
   C6_exit_codes.2 _ _ _ (by intro f hf; rw [List.mem_singleton] at hf; subst hf; decide)
     (by
       intro fname f line hf hl
       rw [List.mem_singleton] at hf
       subst hf
       rw [List.mem_singleton] at hl
       subst hl
       decide)⟩

/-- C7: records whose status is not `'github'` pass through the clone phase
untouched, with a diagnostic printed, and the external clone command is only
ever invoked for `'github'` records; the phase still returns normally. -/
theorem C7_skip_non_github :
    ∀ (runGit : List Char → List Char → GitResult)
      (students : List (List Char × Student)),
      (∀ p ∈ students, p.2.status = "github".toList → p.2.ssh_url ≠ none) →
      ∃ out log inv, clone_repos runGit students = (.ret out, log, inv) ∧
        (∀ k s, (k, s) ∈ students → s.status ≠ "github".toList →
          (k, s) ∈ out ∧ Msg.skipNoUrl k ∈ log) ∧
        (∀ ssh, ssh ∈ inv → ∃ p, p ∈ students ∧ p.2.status = "github".toList ∧
          p.2.ssh_url = some ssh) := by
  intro runGit students hwf
  obtain ⟨out, log, inv, h1, _, h3, _, h5⟩ := clone_repos_spec runGit students hwf
  exact ⟨out, log, inv, h1, h3, h5⟩

/-- C7 witness: a collection holding a single `'no_url'` record. -/
theorem C7_witness :
    ∃ out log inv,
      clone_repos (fun _ _ => .completed 0 [])
        [("jandoe".toList,
          { folder := "f".toList, datetime := ⟨2025, 1, 25, 14, 4⟩,
            first := some "Jan".toList, last := some "Doe".toList,
            userid := none, repo := none, ssh_url := some [],
            status := "no_url".toList })] = (.ret out, log, inv) ∧
      (∀ k s,
        (k, s) ∈ [("jandoe".toList,
          ({ folder := "f".toList, datetime := ⟨2025, 1, 25, 14, 4⟩,
             first := some "Jan".toList, last := some "Doe".toList,
             userid := none, repo := none, ssh_url := some [],
             status := "no_url".toList } : Student))] → s.status ≠ "github".toList →
        (k, s) ∈ out ∧ Msg.skipNoUrl k ∈ log) ∧
      (∀ ssh, ssh ∈ inv → ∃ p,
        p ∈ [("jandoe".toList,
          ({ folder := "f".toList, datetime := ⟨2025, 1, 25, 14, 4⟩,
             first := some "Jan".toList, last := some "Doe".toList,
             userid := none, repo := none, ssh_url := some [],
             status := "no_url".toList } : Student))] ∧
        p.2.status = "github".toList ∧ p.2.ssh_url = some ssh) :=
  C7_skip_non_github (fun _ _ => .completed 0 []) _ (by decide)
